import Mathlib

/-!
Shallow embedding of the decision version graph core of the cos-ai backend
(`backend/app/core/decision_graph.py`, `version_resolution.py`,
`drift_detection.py`, `stakeholders.py`, `agents/memory_agent.py`,
`api/project_endpoints.py`) together with theorems checking the design
specification against it.

Modelling notes.
The Python code stores the graph in a `networkx.DiGraph` whose node keys are
namespaced strings (`decision:<id>`, `decision_version:<id>`,
`stakeholder:<id>`).  The three namespaces are disjoint (the literal name
before the first colon differs), and every node access in the embedded code
goes through one of the three namespacing helpers, so node keys are embedded
as a three-constructor inductive type; constructor injectivity mirrors the
injectivity of the string namespacing.  A `DiGraph` holds at most one edge
per ordered node pair; re-adding an edge overwrites its attribute dict, and
node attribute dicts are updated key-by-key (`add_node` merges).  Nodes and
edges are kept in insertion order, which the embedding preserves by using
ordered association lists with in-place update.  Timestamps
(`datetime.now(...).isoformat()`) are opaque strings produced outside the
algorithms; they are taken as explicit parameters.  The `confidence` float is
carried as a rational number: no embedded algorithm reads it, it is only
stored.  `ValueError`s are embedded as an error inductive with one
constructor per distinct raise site, carrying the data interpolated into the
corresponding message.
-/

namespace CosAi

/-- Node identifier, embedding the namespaced node-key strings of the source
(`decision:<id>`, `decision_version:<id>`, `stakeholder:<id>`). -/
inductive NodeId where
  | decision (id : String)
  | version (id : String)
  | stakeholder (id : String)
deriving DecidableEq, Repr

/-- Node attribute dictionary.  Every key that any embedded function reads or
writes appears as an optional field; `none` embeds an absent key (Python
`dict.get` returning `None`). -/
structure NodeAttrs where
  type : Option String := none
  decision_id : Option String := none
  version_id : Option String := none
  stakeholder_id : Option String := none
  title : Option String := none
  name : Option String := none
  department : Option String := none
  role : Option String := none
  scoped_projects : Option (List String) := none
  content : Option String := none
  reasoning : Option String := none
  confidence : Option Rat := none
  created_at : Option String := none
  project_id : Option String := none
deriving DecidableEq, Repr

/-- A directed edge with its `type` attribute. -/
structure Edge where
  src : NodeId
  dst : NodeId
  type : String
deriving DecidableEq, Repr

/-- A project graph: ordered node association list plus ordered edge list.
A `DiGraph` has at most one edge per ordered pair; the mutators below keep
that shape, and arbitrary graphs with duplicate pairs are still given the
first-match semantics of the lookup helpers. -/
structure Graph where
  nodes : List (NodeId × NodeAttrs)
  edges : List Edge
deriving DecidableEq, Repr

/-- First-match lookup in the node association list. -/
def lookupNode : List (NodeId × NodeAttrs) → NodeId → Option NodeAttrs
  | [], _ => none
  | p :: rest, n => if p.1 = n then some p.2 else lookupNode rest n

/-- Update the attributes of node `n` in place (Python `add_node` merge /
attribute assignment), appending a fresh node when absent. -/
def updateAssoc : List (NodeId × NodeAttrs) → NodeId → (NodeAttrs → NodeAttrs) →
    List (NodeId × NodeAttrs)
  | [], n, f => [(n, f {})]
  | p :: rest, n, f => if p.1 = n then (n, f p.2) :: rest else p :: updateAssoc rest n f

def Graph.getNode? (g : Graph) (n : NodeId) : Option NodeAttrs :=
  lookupNode g.nodes n

/-- Membership test, embedding `node in graph`. -/
def Graph.hasNode (g : Graph) (n : NodeId) : Bool :=
  (g.getNode? n).isSome

def Graph.updateNode (g : Graph) (n : NodeId) (f : NodeAttrs → NodeAttrs) : Graph :=
  { g with nodes := updateAssoc g.nodes n f }

/-- Upsert an edge: `DiGraph.add_edge` overwrites the attributes of an
existing `(src, dst)` edge in place and otherwise appends a new edge. -/
def upsertEdge : List Edge → NodeId → NodeId → String → List Edge
  | [], u, v, t => [⟨u, v, t⟩]
  | e :: rest, u, v, t =>
      if e.src = u ∧ e.dst = v then ⟨u, v, t⟩ :: rest else e :: upsertEdge rest u v t

/-- Ensure a node is present (`add_edge` creates missing endpoints with an
empty attribute dict; the embedded mutators always check existence first, so
this branch never fires on their call sites). -/
def ensureNode (g : Graph) (n : NodeId) : Graph :=
  if g.hasNode n then g else { g with nodes := g.nodes ++ [(n, {})] }

/-- Embedding of `DiGraph.add_edge(u, v, type=t)`. -/
def Graph.addEdgeRaw (g : Graph) (u v : NodeId) (t : String) : Graph :=
  { ensureNode (ensureNode g u) v with
    edges := upsertEdge (ensureNode (ensureNode g u) v).edges u v t }

/-- First-match edge lookup for the ordered pair `(u, v)`. -/
def lookupEdge : List Edge → NodeId → NodeId → Option Edge
  | [], _, _ => none
  | e :: rest, u, v => if e.src = u ∧ e.dst = v then some e else lookupEdge rest u v

/-- The `type` attribute of the `(u, v)` edge, `none` when the edge is
absent; embeds `graph.edges[u, v].get("type")` guarded by `has_edge`. -/
def Graph.edgeType? (g : Graph) (u v : NodeId) : Option String :=
  (lookupEdge g.edges u v).map (fun e => e.type)

/-- Embedding of `DiGraph.remove_edge(u, v)` (call sites guard with
`has_edge`, so the missing-edge `NetworkXError` never fires). -/
def Graph.removeEdge (g : Graph) (u v : NodeId) : Graph :=
  { g with edges := g.edges.filter (fun e => !(decide (e.src = u ∧ e.dst = v))) }

def typeOf (g : Graph) (n : NodeId) : Option String :=
  (g.getNode? n).bind (fun a => a.type)

def versionIdOf (g : Graph) (n : NodeId) : Option String :=
  (g.getNode? n).bind (fun a => a.version_id)

def stakeholderIdOf (g : Graph) (n : NodeId) : Option String :=
  (g.getNode? n).bind (fun a => a.stakeholder_id)

def roleOf (g : Graph) (n : NodeId) : Option String :=
  (g.getNode? n).bind (fun a => a.role)

/-- Error taxonomy: one constructor per distinct `ValueError` raise site in
the embedded modules, carrying the data interpolated into its message. -/
inductive GraphError where
  | decisionNotFound (decision_id : String)
  | versionNotFound (version_id : String)
  | stakeholderNotFound (stakeholder_id : String)
  | noVersions (decision_id : String)
  | ambiguousLatest (decision_id : String) (count : Nat)
  | invalidRole (role : Option String)
  | invalidRoleForDecisionLink
  | invalidRoleForVersionLink
deriving DecidableEq, Repr

instance {α β : Type} [DecidableEq α] [DecidableEq β] :
    DecidableEq (Except α β) := fun a b =>
  match a, b with
  | .ok x, .ok y =>
      match decEq x y with
      | isTrue h => isTrue (by rw [h])
      | isFalse h => isFalse (fun hc => h (by cases hc; rfl))
  | .error x, .error y =>
      match decEq x y with
      | isTrue h => isTrue (by rw [h])
      | isFalse h => isFalse (fun hc => h (by cases hc; rfl))
  | .ok _, .error _ => isFalse (fun hc => by cases hc)
  | .error _, .ok _ => isFalse (fun hc => by cases hc)

namespace DecisionGraph

/-- Embedding of `decision_graph.add_decision` (the `created_at or _ts()`
timestamp is an explicit parameter). -/
def add_decision (g : Graph) (decision_id title created_at : String) : Graph :=
  g.updateNode (NodeId.decision decision_id) (fun a =>
    { a with type := some "decision", decision_id := some decision_id,
             title := some title, created_at := some created_at })

/-- Embedding of `decision_graph.add_decision_version`. -/
def add_decision_version (g : Graph) (version_id decision_id content : String)
    (confidence : Rat) (reasoning created_at : String) : Except GraphError Graph :=
  let decision_node := NodeId.decision decision_id
  if g.hasNode decision_node then
    let version_node := NodeId.version version_id
    let g1 := g.updateNode version_node (fun a =>
      { a with type := some "decision_version", version_id := some version_id,
               decision_id := some decision_id, content := some content,
               created_at := some created_at, confidence := some confidence,
               reasoning := some reasoning })
    .ok (g1.addEdgeRaw decision_node version_node "has_version")
  else .error (.decisionNotFound decision_id)

/-- Embedding of `decision_graph.link_supersedes`. -/
def link_supersedes (g : Graph) (new_version_id previous_version_id : String) :
    Except GraphError Graph :=
  let new_node := NodeId.version new_version_id
  let prev_node := NodeId.version previous_version_id
  if ¬ g.hasNode new_node then .error (.versionNotFound new_version_id)
  else if ¬ g.hasNode prev_node then .error (.versionNotFound previous_version_id)
  else .ok (g.addEdgeRaw new_node prev_node "supersedes")

/-- Embedding of `decision_graph.add_stakeholder` (the minimal variant of
this module, without department or project scope). -/
def add_stakeholder (g : Graph) (stakeholder_id name role : String) : Graph :=
  g.updateNode (NodeId.stakeholder stakeholder_id) (fun a =>
    { a with type := some "stakeholder", stakeholder_id := some stakeholder_id,
             name := some name, role := some role })

/-- Embedding of `decision_graph.record_reference`. -/
def record_reference (g : Graph) (version_id stakeholder_id : String) :
    Except GraphError Graph :=
  let version_node := NodeId.version version_id
  let stakeholder_node := NodeId.stakeholder stakeholder_id
  if ¬ g.hasNode version_node then .error (.versionNotFound version_id)
  else if ¬ g.hasNode stakeholder_node then .error (.stakeholderNotFound stakeholder_id)
  else .ok (g.addEdgeRaw version_node stakeholder_node "referenced_by")

/-- Embedding of `decision_graph.record_affects`. -/
def record_affects (g : Graph) (decision_id stakeholder_id : String) :
    Except GraphError Graph :=
  let decision_node := NodeId.decision decision_id
  let stakeholder_node := NodeId.stakeholder stakeholder_id
  if ¬ g.hasNode decision_node then .error (.decisionNotFound decision_id)
  else if ¬ g.hasNode stakeholder_node then .error (.stakeholderNotFound stakeholder_id)
  else .ok (g.addEdgeRaw decision_node stakeholder_node "affects")

end DecisionGraph

namespace VersionResolution

/-- The version nodes the resolver collects for a decision: targets of
`has_version` out-edges of the decision node whose node type is
`decision_version` (`version_resolution.py` lines 15-21). -/
def resolverVersionNodes (g : Graph) (decision_id : String) : List NodeId :=
  (g.edges.filter (fun e =>
    decide (e.src = NodeId.decision decision_id ∧ e.type = "has_version" ∧
      typeOf g e.dst = some "decision_version"))).map (fun e => e.dst)

/-- The superseded subset: targets of a `supersedes` edge originating from a
version in the collected set and landing in the collected set
(`version_resolution.py` lines 26-33); a list with set semantics. -/
def supersededOf (g : Graph) (version_nodes : List NodeId) : List NodeId :=
  (g.edges.filter (fun e =>
    decide (e.src ∈ version_nodes ∧ e.type = "supersedes" ∧
      e.dst ∈ version_nodes))).map (fun e => e.dst)

/-- The in-set `supersedes` pairs (newer, older) over a version set; the
superseded set is its image under the second projection. -/
def supersedesPairs (g : Graph) (version_nodes : List NodeId) : List (NodeId × NodeId) :=
  (g.edges.filter (fun e =>
    decide (e.src ∈ version_nodes ∧ e.type = "supersedes" ∧
      e.dst ∈ version_nodes))).map (fun e => (e.src, e.dst))

/-- The candidate latest versions: collected versions not in the superseded
set (`version_resolution.py` line 35). -/
def latestCandidates (g : Graph) (decision_id : String) : List NodeId :=
  (resolverVersionNodes g decision_id).filter (fun v =>
    decide (v ∉ supersededOf g (resolverVersionNodes g decision_id)))

/-- Embedding of `version_resolution.get_latest_decision_version`. -/
def get_latest_decision_version (g : Graph) (decision_id : String) :
    Except GraphError NodeId :=
  if typeOf g (NodeId.decision decision_id) = some "decision" then
    if resolverVersionNodes g decision_id = [] then .error (.noVersions decision_id)
    else
      match latestCandidates g decision_id with
      | [x] => .ok x
      | l => .error (.ambiguousLatest decision_id l.length)
  else .error (.decisionNotFound decision_id)

end VersionResolution

namespace DriftDetection

/-- Result record of `drift_detection.detect_decision_drift`.
`stakeholder_versions` is an insertion-ordered association list (a Python
dict); `referenced_versions` is the sorted list built from a Python set. -/
structure DriftResult where
  decision_id : String
  drift_detected : Bool
  referenced_versions : List String
  stakeholder_versions : List (String × List String)
deriving DecidableEq, Repr

/-- The version nodes drift detection collects: like the resolver, but also
requiring the `decision_id` node attribute to match
(`drift_detection.py` lines 19-27). -/
def driftVersionNodes (g : Graph) (decision_id : String) : List NodeId :=
  (g.edges.filter (fun e =>
    decide (e.src = NodeId.decision decision_id ∧ e.type = "has_version" ∧
      typeOf g e.dst = some "decision_version" ∧
      (g.getNode? e.dst).bind (fun a => a.decision_id) = some decision_id))).map
    (fun e => e.dst)

/-- The stakeholder ids reached from one version node along `referenced_by`
edges, keeping only stakeholder-typed targets with a truthy
`stakeholder_id` (`drift_detection.py` lines 37-45). -/
def refTargets (g : Graph) (version_node : NodeId) : List String :=
  (g.edges.filter (fun e =>
    decide (e.src = version_node ∧ e.type = "referenced_by" ∧
      typeOf g e.dst = some "stakeholder"))).filterMap (fun e =>
    match stakeholderIdOf g e.dst with
    | some s => if s = "" then none else some s
    | none => none)

/-- Embedding of `stakeholder_versions.setdefault(sid, [])` followed by the
membership-guarded append; returns the updated dict and whether the version
id was newly appended. -/
def svInsert : List (String × List String) → String → String →
    List (String × List String) × Bool
  | [], sid, vid => ([(sid, [vid])], true)
  | p :: rest, sid, vid =>
      if p.1 = sid then
        if vid ∈ p.2 then (p :: rest, false) else ((sid, p.2 ++ [vid]) :: rest, true)
      else
        let r := svInsert rest sid vid
        (p :: r.1, r.2)

/-- One `referenced_by` edge step of the accumulation loop: update the
per-stakeholder dict and, when the version id was newly recorded, the
referenced-versions set. -/
def refStep (vid : String) (st : List (String × List String) × List String)
    (sid : String) : List (String × List String) × List String :=
  let r := svInsert st.1 sid vid
  (r.1, if r.2 then (if vid ∈ st.2 then st.2 else st.2 ++ [vid]) else st.2)

/-- The accumulation over one version node: skipped when its `version_id`
attribute is falsy, otherwise folds `refStep` over its reference targets. -/
def versionStep (g : Graph) (st : List (String × List String) × List String)
    (version_node : NodeId) : List (String × List String) × List String :=
  match versionIdOf g version_node with
  | none => st
  | some vid => if vid = "" then st else (refTargets g version_node).foldl (refStep vid) st

/-- Lexicographic sort of a string list (Python `sorted`). -/
def sortStr (l : List String) : List String :=
  l.insertionSort (fun a b => a ≤ b)

/-- Embedding of `drift_detection.detect_decision_drift`. -/
def detect_decision_drift (g : Graph) (decision_id : String) : DriftResult :=
  if typeOf g (NodeId.decision decision_id) = some "decision" then
    let st := (driftVersionNodes g decision_id).foldl (versionStep g) ([], [])
    let referenced_version_list := sortStr st.2
    { decision_id := decision_id,
      drift_detected := decide (1 < referenced_version_list.length),
      referenced_versions := referenced_version_list,
      stakeholder_versions := st.1 }
  else
    { decision_id := decision_id, drift_detected := false,
      referenced_versions := [], stakeholder_versions := [] }

end DriftDetection

namespace Stakeholders

def ALLOWED_ROLES : List String :=
  ["Owner", "Contributor", "Informed", "Affected", "Observer"]

/-- Embedding of `stakeholders._require_valid_role` as a Bool test; the
raise site maps to `GraphError.invalidRole` at each caller. -/
def validRole (role : Option String) : Bool :=
  match role with
  | some r => decide (r ∈ ALLOWED_ROLES)
  | none => false

/-- Embedding of `stakeholders.add_stakeholder` (the upsert variant with
department, role validation and project scope). -/
def add_stakeholder (g : Graph) (stakeholder_id name department role : String)
    (scoped_projects : List String) : Except GraphError Graph :=
  if validRole (some role) then
    .ok (g.updateNode (NodeId.stakeholder stakeholder_id) (fun a =>
      { a with type := some "stakeholder", stakeholder_id := some stakeholder_id,
               name := some name, department := some department, role := some role,
               scoped_projects := some scoped_projects }))
  else .error (.invalidRole (some role))

/-- Embedding of `stakeholders.link_stakeholder_to_decision`. -/
def link_stakeholder_to_decision (g : Graph) (stakeholder_id decision_id : String) :
    Except GraphError Graph :=
  let stakeholder_node := NodeId.stakeholder stakeholder_id
  let decision_node := NodeId.decision decision_id
  if ¬ g.hasNode stakeholder_node then .error (.stakeholderNotFound stakeholder_id)
  else if ¬ g.hasNode decision_node then .error (.decisionNotFound decision_id)
  else
    let role := roleOf g stakeholder_node
    if ¬ validRole role then .error (.invalidRole role)
    else if role = some "Owner" then
      .ok (g.addEdgeRaw stakeholder_node decision_node "owns")
    else if role = some "Contributor" then
      .ok (g.addEdgeRaw stakeholder_node decision_node "contributes")
    else .error .invalidRoleForDecisionLink

/-- Embedding of `stakeholders.link_stakeholder_to_version`. -/
def link_stakeholder_to_version (g : Graph) (stakeholder_id version_id : String) :
    Except GraphError Graph :=
  let stakeholder_node := NodeId.stakeholder stakeholder_id
  let version_node := NodeId.version version_id
  if ¬ g.hasNode stakeholder_node then .error (.stakeholderNotFound stakeholder_id)
  else if ¬ g.hasNode version_node then .error (.versionNotFound version_id)
  else
    let role := roleOf g stakeholder_node
    if ¬ validRole role then .error (.invalidRole role)
    else if role = some "Informed" then
      .ok (g.addEdgeRaw stakeholder_node version_node "informed_of")
    else if role = some "Affected" then
      .ok (g.addEdgeRaw stakeholder_node version_node "affected_by")
    else .error .invalidRoleForVersionLink

/-- Routing result of `stakeholders.compute_routing_targets`: each group is
the sorted list of a stakeholder-id set. -/
structure RoutingResult where
  amplify : List String
  inform : List String
  restrict : List String
deriving DecidableEq, Repr

/-- Deduplicate then sort, embedding Python `sorted(<set of str>)`. -/
def sortedSet (l : List String) : List String :=
  DriftDetection.sortStr l.dedup

/-- Embedding of `stakeholders._stakeholders_for_edge`: stakeholder ids with
an incoming edge of the given type into `target`, role-filtered, truthy ids
only (set semantics). -/
def roleIn (role : Option String) (expected_roles : List String) : Bool :=
  match role with
  | some r => decide (r ∈ expected_roles)
  | none => false

def stakeholders_for_edge (g : Graph) (target : NodeId) (edge_type : String)
    (expected_roles : List String) : List String :=
  (g.edges.filter (fun e =>
    decide (e.dst = target ∧ e.type = edge_type ∧
      typeOf g e.src = some "stakeholder" ∧
      roleIn (roleOf g e.src) expected_roles = true))).filterMap (fun e =>
    match stakeholderIdOf g e.src with
    | some s => if s = "" then none else some s
    | none => none)

/-- Sources of any incoming edge of `n` (`graph.in_edges(n)`). -/
def linkedSources (g : Graph) (n : NodeId) : List NodeId :=
  (g.edges.filter (fun e => decide (e.dst = n))).map (fun e => e.src)

/-- The Observer filter of the `restrict` computation. -/
def observerIds (g : Graph) (sources : List NodeId) : List String :=
  sources.filterMap (fun src =>
    if typeOf g src = some "stakeholder" ∧ roleOf g src = some "Observer" then
      match stakeholderIdOf g src with
      | some s => if s = "" then none else some s
      | none => none
    else none)

/-- Embedding of `stakeholders.compute_routing_targets`. -/
def compute_routing_targets (g : Graph) (decision_id version_id : String) :
    Except GraphError RoutingResult :=
  let decision_node := NodeId.decision decision_id
  let version_node := NodeId.version version_id
  if ¬ g.hasNode decision_node then .error (.decisionNotFound decision_id)
  else if ¬ g.hasNode version_node then .error (.versionNotFound version_id)
  else
    let amplify := stakeholders_for_edge g decision_node "owns" ["Owner"] ++
      stakeholders_for_edge g decision_node "contributes" ["Contributor"]
    let inform := stakeholders_for_edge g version_node "informed_of" ["Informed"] ++
      stakeholders_for_edge g version_node "affected_by" ["Affected"]
    let linked_sources := linkedSources g decision_node ++ linkedSources g version_node
    let restrict := observerIds g linked_sources
    .ok { amplify := sortedSet amplify, inform := sortedSet inform,
          restrict := sortedSet restrict }

end Stakeholders

namespace MemoryAgent

/-- Stamp `graph.nodes[node]["project_id"] = project_id` (the call sites
guarantee the node exists; on an absent node the embedding inserts it, the
source would raise a `KeyError`, but that branch is never reached). -/
def stampProject (g : Graph) (n : NodeId) (project_id : String) : Graph :=
  g.updateNode n (fun a => { a with project_id := some project_id })

/-- Embedding of `MemoryAgent._upsert_decision`. -/
def upsert_decision (g : Graph) (project_id decision_id title created_at : String) :
    Graph :=
  let g1 := if g.hasNode (NodeId.decision decision_id) then g
    else DecisionGraph.add_decision g decision_id title created_at
  stampProject g1 (NodeId.decision decision_id) project_id

/-- Embedding of `MemoryAgent._upsert_decision_version`: when the version
node is new, the previous latest is resolved first (failures mapped to
`None`), the version is added, and a `supersedes` edge to the previous
latest is created when one existed. -/
def upsert_decision_version (g : Graph) (project_id decision_id version_id
    content : String) (confidence : Rat) (reasoning created_at : String) :
    Except GraphError Graph :=
  let version_node := NodeId.version version_id
  if g.hasNode version_node then
    .ok (stampProject g version_node project_id)
  else
    let previous_latest :=
      (VersionResolution.get_latest_decision_version g decision_id).toOption
    match DecisionGraph.add_decision_version g version_id decision_id content
        confidence reasoning created_at with
    | .error e => .error e
    | .ok g1 =>
        let g2 := match previous_latest with
          | some prev => if prev ≠ version_node then
              g1.addEdgeRaw version_node prev "supersedes" else g1
          | none => g1
        .ok (stampProject g2 version_node project_id)

/-- Input contract of a meeting participant (`StakeholderInput`). -/
structure Participant where
  stakeholder_id : String
  name : String
  department : String
  role : String
deriving DecidableEq, Repr

/-- One structured decision entry of a meeting (`meeting["decisions"]`). -/
structure MeetingDecision where
  decision_id : String
  title : String
  version_id : String
  content : String
  confidence : Rat
  reasoning : String
deriving DecidableEq, Repr

/-- Embedding of `MemoryAgent._upsert_stakeholder`. -/
def upsert_stakeholder (g : Graph) (project_id : String) (person : Participant) :
    Except GraphError Graph :=
  Stakeholders.add_stakeholder g person.stakeholder_id person.name
    person.department person.role [project_id]

/-- Embedding of `MemoryAgent._link_person` (both link failures are caught
and ignored). -/
def link_person (g : Graph) (stakeholder_id decision_id version_id : String) : Graph :=
  let g1 := match Stakeholders.link_stakeholder_to_decision g stakeholder_id
      decision_id with
    | .ok g' => g'
    | .error _ => g
  match Stakeholders.link_stakeholder_to_version g1 stakeholder_id version_id with
  | .ok g' => g'
  | .error _ => g1

/-- The graph mutation performed for one decision of
`MemoryAgent.process_meeting`: decision upsert, version upsert, then per
participant a stakeholder upsert and links.  The routing read, event record
and disk save of the source do not mutate the graph and are omitted. -/
def processDecision (g : Graph) (project_id created_at : String)
    (participants : List Participant) (d : MeetingDecision) :
    Except GraphError Graph := do
  let g1 := upsert_decision g project_id d.decision_id d.title created_at
  let g2 ← upsert_decision_version g1 project_id d.decision_id d.version_id
    d.content d.confidence d.reasoning created_at
  participants.foldlM (fun g p => do
    let ga ← upsert_stakeholder g project_id p
    pure (link_person ga p.stakeholder_id d.decision_id d.version_id)) g2

/-- Embedding of the graph effect of `MemoryAgent.process_meeting` on a
structured (non-empty) decision list: the LLM extraction branch is not taken
when `decisions` is non-empty, as in the approve-meeting call site. -/
def process_meeting_graph (g : Graph) (project_id created_at : String)
    (decisions : List MeetingDecision) (participants : List Participant) :
    Except GraphError Graph :=
  decisions.foldlM (fun g d => processDecision g project_id created_at participants d) g

end MemoryAgent

namespace ProjectEndpoints

open MemoryAgent

/-- Embedding of `project_endpoints._safe_latest_version`: the version id
attribute of the resolved latest node with falsy values collapsed to the
empty string, or `none` when resolution fails. -/
def safe_latest_version (g : Graph) (decision_id : String) : Option String :=
  match VersionResolution.get_latest_decision_version g decision_id with
  | .ok n => some ((versionIdOf g n).getD "")
  | .error _ => none

/-- The decision-local version nodes collected by
`_mark_attendance_drift` before resetting references. -/
def driftResetVersionNodes (g : Graph) (decision_id : String) : List NodeId :=
  if g.hasNode (NodeId.decision decision_id) then
    (g.edges.filter (fun e =>
      decide (e.src = NodeId.decision decision_id ∧ e.type = "has_version" ∧
        typeOf g e.dst = some "decision_version"))).map (fun e => e.dst)
  else []

/-- The per-stakeholder body of `_mark_attendance_drift`: attendees are
skipped; for a present non-attendee every `referenced_by` edge from the
decision versions is removed; then a reference to the previous latest is
recorded, failures ignored. -/
def driftResetStakeholder (attendees : List String) (previous_version : String)
    (version_nodes : List NodeId) (g : Graph) (s : Participant) : Graph :=
  if s.stakeholder_id ∈ attendees then g
  else
    let stakeholder_node := NodeId.stakeholder s.stakeholder_id
    let g1 := if g.hasNode stakeholder_node then
        version_nodes.foldl (fun g vn =>
          if g.edgeType? vn stakeholder_node = some "referenced_by" then
            g.removeEdge vn stakeholder_node
          else g) g
      else g
    match DecisionGraph.record_reference g1 previous_version s.stakeholder_id with
    | .ok g2 => g2
    | .error _ => g1

/-- Embedding of `project_endpoints._mark_attendance_drift`; the
`previous_versions` dict is an insertion-ordered association list. -/
def mark_attendance_drift (g : Graph) (project_stakeholders : List Participant)
    (attendees : List String) (previous_versions : List (String × Option String)) :
    Graph :=
  previous_versions.foldl (fun g dv =>
    match dv.2 with
    | none => g
    | some previous_version =>
        if previous_version = "" then g
        else
          let version_nodes := driftResetVersionNodes g dv.1
          project_stakeholders.foldl
            (driftResetStakeholder attendees previous_version version_nodes) g) g

/-- Embedding of `project_endpoints._record_attendee_acknowledgement`. -/
def record_attendee_acknowledgement (g : Graph) (attendees : List Participant)
    (version_id : String) : Graph :=
  attendees.foldl (fun g p =>
    match DecisionGraph.record_reference g version_id p.stakeholder_id with
    | .ok g' => g'
    | .error _ => g) g

/-- Embedding of the graph effect of `project_endpoints._approve_meeting`:
capture previous latest version ids, process the meeting, reset non-attendee
references, then acknowledge attendees on each committed version. -/
def approve_meeting (g : Graph) (project_id created_at : String)
    (project_stakeholders : List Participant)
    (meeting_decisions : List MeetingDecision)
    (participants : List Participant) : Except GraphError Graph := do
  let previous_versions := meeting_decisions.map (fun d =>
    (d.decision_id, safe_latest_version g d.decision_id))
  let g1 ← process_meeting_graph g project_id created_at meeting_decisions
    participants
  let attendee_ids := participants.map (fun p => p.stakeholder_id)
  let g2 := mark_attendance_drift g1 project_stakeholders attendee_ids
    previous_versions
  pure (meeting_decisions.foldl (fun g d =>
    record_attendee_acknowledgement g participants d.version_id) g2)

end ProjectEndpoints

/-! Infrastructure lemmas about the graph representation. -/

theorem lookupNode_updateAssoc_self (l : List (NodeId × NodeAttrs)) (n : NodeId)
    (f : NodeAttrs → NodeAttrs) :
    lookupNode (updateAssoc l n f) n = some (f ((lookupNode l n).getD {})) := by
  induction l with
  | nil => simp [updateAssoc, lookupNode]
  | cons p rest ih =>
      by_cases h : p.1 = n
      · simp [updateAssoc, lookupNode, h]
      · simp [updateAssoc, lookupNode, h, ih]

theorem lookupNode_updateAssoc_ne (l : List (NodeId × NodeAttrs)) (n m : NodeId)
    (f : NodeAttrs → NodeAttrs) (h : m ≠ n) :
    lookupNode (updateAssoc l n f) m = lookupNode l m := by
  induction l with
  | nil =>
      simp [updateAssoc, lookupNode]
      intro he
      exact absurd he.symm h
  | cons p rest ih =>
      by_cases hp : p.1 = n
      · subst hp
        have h2 : p.1 ≠ m := fun hh => h hh.symm
        simp [updateAssoc, lookupNode, h2]
      · simp [updateAssoc, lookupNode, hp]
        by_cases hm : p.1 = m
        · simp [hm]
        · simp [hm, ih]

theorem getNode?_updateNode_self (g : Graph) (n : NodeId) (f : NodeAttrs → NodeAttrs) :
    (g.updateNode n f).getNode? n = some (f ((g.getNode? n).getD {})) :=
  lookupNode_updateAssoc_self g.nodes n f

theorem getNode?_updateNode_ne (g : Graph) (n m : NodeId) (f : NodeAttrs → NodeAttrs)
    (h : m ≠ n) : (g.updateNode n f).getNode? m = g.getNode? m :=
  lookupNode_updateAssoc_ne g.nodes n m f h

theorem updateNode_edges (g : Graph) (n : NodeId) (f : NodeAttrs → NodeAttrs) :
    (g.updateNode n f).edges = g.edges := rfl

theorem hasNode_updateNode (g : Graph) (n m : NodeId) (f : NodeAttrs → NodeAttrs) :
    (g.updateNode n f).hasNode m = (if m = n then true else g.hasNode m) := by
  by_cases h : m = n
  · subst h
    simp [Graph.hasNode, getNode?_updateNode_self]
  · simp [Graph.hasNode, getNode?_updateNode_ne g n m f h, h]

theorem ensureNode_of_hasNode (g : Graph) (n : NodeId) (h : g.hasNode n = true) :
    ensureNode g n = g := by
  simp [ensureNode, h]

theorem addEdgeRaw_nodes (g : Graph) (u v : NodeId) (t : String)
    (hu : g.hasNode u = true) (hv : g.hasNode v = true) :
    (g.addEdgeRaw u v t).nodes = g.nodes := by
  simp [Graph.addEdgeRaw, ensureNode_of_hasNode g u hu, ensureNode_of_hasNode g v hv]

theorem addEdgeRaw_edges (g : Graph) (u v : NodeId) (t : String)
    (hu : g.hasNode u = true) (hv : g.hasNode v = true) :
    (g.addEdgeRaw u v t).edges = upsertEdge g.edges u v t := by
  simp [Graph.addEdgeRaw, ensureNode_of_hasNode g u hu, ensureNode_of_hasNode g v hv]

theorem hasNode_of_nodes_eq {g g' : Graph} (h : g'.nodes = g.nodes) (n : NodeId) :
    g'.hasNode n = g.hasNode n := by
  simp [Graph.hasNode, Graph.getNode?, h]

theorem lookupEdge_upsertEdge_self (l : List Edge) (u v : NodeId) (t : String) :
    lookupEdge (upsertEdge l u v t) u v = some ⟨u, v, t⟩ := by
  induction l with
  | nil => simp [upsertEdge, lookupEdge]
  | cons e rest ih =>
      by_cases h : e.src = u ∧ e.dst = v
      · simp [upsertEdge, lookupEdge, h]
      · simp [upsertEdge, lookupEdge, h, ih]

theorem lookupEdge_upsertEdge_ne (l : List Edge) (u v u' v' : NodeId) (t : String)
    (h : ¬(u' = u ∧ v' = v)) :
    lookupEdge (upsertEdge l u v t) u' v' = lookupEdge l u' v' := by
  induction l with
  | nil =>
      simp [upsertEdge, lookupEdge]
      intro h1 h2
      exact absurd ⟨h1.symm, h2.symm⟩ h
  | cons e rest ih =>
      by_cases he : e.src = u ∧ e.dst = v
      · have hco : ¬(u = u' ∧ v = v') := fun hc => h ⟨hc.1.symm, hc.2.symm⟩
        have h2 : ¬(e.src = u' ∧ e.dst = v') := by
          rw [he.1, he.2]; exact hco
        simp [upsertEdge, lookupEdge, he, hco, h2]
      · simp only [upsertEdge, he, if_false]
        by_cases hm : e.src = u' ∧ e.dst = v'
        · simp [lookupEdge, hm]
        · simp [lookupEdge, hm, ih]

theorem upsertEdge_idem (l : List Edge) (u v : NodeId) (t : String) :
    upsertEdge (upsertEdge l u v t) u v t = upsertEdge l u v t := by
  induction l with
  | nil => simp [upsertEdge]
  | cons e rest ih =>
      by_cases h : e.src = u ∧ e.dst = v
      · simp [upsertEdge, h]
      · simp [upsertEdge, h, ih]

theorem upsertEdge_of_lookup_none (l : List Edge) (u v : NodeId) (t : String)
    (h : lookupEdge l u v = none) : upsertEdge l u v t = l ++ [⟨u, v, t⟩] := by
  induction l with
  | nil => simp [upsertEdge]
  | cons e rest ih =>
      by_cases he : e.src = u ∧ e.dst = v
      · simp [lookupEdge, he] at h
      · simp only [lookupEdge, he, if_false] at h
        simp [upsertEdge, he, ih h]

theorem upsertEdge_of_lookup_self (l : List Edge) (u v : NodeId) (t : String)
    (h : lookupEdge l u v = some ⟨u, v, t⟩) : upsertEdge l u v t = l := by
  induction l with
  | nil => simp [lookupEdge] at h
  | cons e rest ih =>
      by_cases he : e.src = u ∧ e.dst = v
      · simp [lookupEdge, he] at h
        simp [upsertEdge, he, h]
      · simp only [lookupEdge, he, if_false] at h
        simp [upsertEdge, he, ih h]

theorem addEdgeRaw_noop (g : Graph) (u v : NodeId) (t : String)
    (hu : g.hasNode u = true) (hv : g.hasNode v = true)
    (he : lookupEdge g.edges u v = some ⟨u, v, t⟩) : g.addEdgeRaw u v t = g := by
  unfold Graph.addEdgeRaw
  rw [ensureNode_of_hasNode g u hu, ensureNode_of_hasNode g v hv,
    upsertEdge_of_lookup_self g.edges u v t he]

theorem edgeType?_addEdgeRaw_self (g : Graph) (u v : NodeId) (t : String)
    (hu : g.hasNode u = true) (hv : g.hasNode v = true) :
    (g.addEdgeRaw u v t).edgeType? u v = some t := by
  simp [Graph.edgeType?, addEdgeRaw_edges g u v t hu hv, lookupEdge_upsertEdge_self]

theorem edgeType?_addEdgeRaw_ne (g : Graph) (u v u' v' : NodeId) (t : String)
    (hu : g.hasNode u = true) (hv : g.hasNode v = true)
    (h : ¬(u' = u ∧ v' = v)) :
    (g.addEdgeRaw u v t).edgeType? u' v' = g.edgeType? u' v' := by
  simp [Graph.edgeType?, addEdgeRaw_edges g u v t hu hv,
    lookupEdge_upsertEdge_ne g.edges u v u' v' t h]

/-! Example graphs used by the witness and counterexample theorems.  Each is
the literal graph the embedded mutators build for the described scenario. -/

/-- One decision `d1` with two committed versions forming a linear chain:
`v2` supersedes `v1`. -/
def gChain : Graph :=
  { nodes := [
      (NodeId.decision "d1",
        { type := some "decision", decision_id := some "d1",
          title := some "T1", created_at := some "t0" }),
      (NodeId.version "v1",
        { type := some "decision_version", version_id := some "v1",
          decision_id := some "d1", content := some "c1",
          created_at := some "t1", confidence := some 1,
          reasoning := some "r1" }),
      (NodeId.version "v2",
        { type := some "decision_version", version_id := some "v2",
          decision_id := some "d1", content := some "c2",
          created_at := some "t2", confidence := some 1,
          reasoning := some "r2" })],
    edges := [
      ⟨NodeId.decision "d1", NodeId.version "v1", "has_version"⟩,
      ⟨NodeId.decision "d1", NodeId.version "v2", "has_version"⟩,
      ⟨NodeId.version "v2", NodeId.version "v1", "supersedes"⟩] }

/-- One decision `d1` with two versions and no supersedes edge: a forked
history with two latest candidates. -/
def gTwoHeads : Graph :=
  { nodes := [
      (NodeId.decision "d1",
        { type := some "decision", decision_id := some "d1",
          title := some "T1", created_at := some "t0" }),
      (NodeId.version "v1",
        { type := some "decision_version", version_id := some "v1",
          decision_id := some "d1", content := some "c1",
          created_at := some "t1", confidence := some 1,
          reasoning := some "r1" }),
      (NodeId.version "v2",
        { type := some "decision_version", version_id := some "v2",
          decision_id := some "d1", content := some "c2",
          created_at := some "t2", confidence := some 1,
          reasoning := some "r2" })],
    edges := [
      ⟨NodeId.decision "d1", NodeId.version "v1", "has_version"⟩,
      ⟨NodeId.decision "d1", NodeId.version "v2", "has_version"⟩] }

/-- Two distinct decisions `dA` and `dB`, each owning one version. -/
def gCross : Graph :=
  { nodes := [
      (NodeId.decision "dA",
        { type := some "decision", decision_id := some "dA",
          title := some "A", created_at := some "t0" }),
      (NodeId.decision "dB",
        { type := some "decision", decision_id := some "dB",
          title := some "B", created_at := some "t0" }),
      (NodeId.version "vA",
        { type := some "decision_version", version_id := some "vA",
          decision_id := some "dA", content := some "a",
          created_at := some "t1", confidence := some 1,
          reasoning := some "ra" }),
      (NodeId.version "vB",
        { type := some "decision_version", version_id := some "vB",
          decision_id := some "dB", content := some "b",
          created_at := some "t2", confidence := some 1,
          reasoning := some "rb" })],
    edges := [
      ⟨NodeId.decision "dA", NodeId.version "vA", "has_version"⟩,
      ⟨NodeId.decision "dB", NodeId.version "vB", "has_version"⟩] }

/-- One decision `d1` with version `v1` and a stakeholder `s1`. -/
def gRefExample : Graph :=
  { nodes := [
      (NodeId.decision "d1",
        { type := some "decision", decision_id := some "d1",
          title := some "T1", created_at := some "t0" }),
      (NodeId.version "v1",
        { type := some "decision_version", version_id := some "v1",
          decision_id := some "d1", content := some "c1",
          created_at := some "t1", confidence := some 1,
          reasoning := some "r1" }),
      (NodeId.stakeholder "s1",
        { type := some "stakeholder", stakeholder_id := some "s1",
          name := some "Alice", department := some "product",
          role := some "Owner", scoped_projects := some ["p1"] })],
    edges := [
      ⟨NodeId.decision "d1", NodeId.version "v1", "has_version"⟩] }

/-- C7: for a decision id that is absent from the graph or names a node
whose type is not decision, drift detection returns the zero-value result
(no drift, empty referenced versions and stakeholder map) instead of
failing. -/
theorem detect_drift_unknown_decision_zero (g : Graph) (d : String)
    (h : typeOf g (NodeId.decision d) ≠ some "decision") :
    DriftDetection.detect_decision_drift g d =
      { decision_id := d, drift_detected := false,
        referenced_versions := [], stakeholder_versions := [] } := by
  simp [DriftDetection.detect_decision_drift, h]

theorem detect_drift_unknown_decision_zero_witness :
    typeOf (Graph.mk [] []) (NodeId.decision "dec-x") ≠ some "decision" ∧
    DriftDetection.detect_decision_drift (Graph.mk [] []) "dec-x" =
      { decision_id := "dec-x", drift_detected := false,
        referenced_versions := [], stakeholder_versions := [] } :=
  ⟨by decide, detect_drift_unknown_decision_zero (Graph.mk [] []) "dec-x" (by decide)⟩

theorem mem_resolverVersionNodes (g : Graph) (d : String) (x : NodeId) :
    x ∈ VersionResolution.resolverVersionNodes g d ↔
      ∃ e ∈ g.edges, e.src = NodeId.decision d ∧ e.type = "has_version" ∧
        typeOf g e.dst = some "decision_version" ∧ e.dst = x := by
  unfold VersionResolution.resolverVersionNodes
  simp only [List.mem_map, List.mem_filter, decide_eq_true_eq]
  constructor
  · rintro ⟨e, ⟨he, h1, h2, h3⟩, h4⟩
    exact ⟨e, he, h1, h2, h3, h4⟩
  · rintro ⟨e, he, h1, h2, h3, h4⟩
    exact ⟨e, ⟨he, h1, h2, h3⟩, h4⟩

theorem mem_supersededOf (g : Graph) (vs : List NodeId) (x : NodeId) :
    x ∈ VersionResolution.supersededOf g vs ↔
      ∃ e ∈ g.edges, e.src ∈ vs ∧ e.type = "supersedes" ∧ e.dst ∈ vs ∧
        e.dst = x := by
  unfold VersionResolution.supersededOf
  simp only [List.mem_map, List.mem_filter, decide_eq_true_eq]
  constructor
  · rintro ⟨e, ⟨he, h1, h2, h3⟩, h4⟩
    exact ⟨e, he, h1, h2, h3, h4⟩
  · rintro ⟨e, he, h1, h2, h3, h4⟩
    exact ⟨e, ⟨he, h1, h2, h3⟩, h4⟩

theorem supersededOf_eq_map_snd (g : Graph) (vs : List NodeId) :
    VersionResolution.supersededOf g vs =
      (VersionResolution.supersedesPairs g vs).map Prod.snd := by
  unfold VersionResolution.supersededOf VersionResolution.supersedesPairs
  rw [List.map_map]
  rfl

theorem map_snd_tail_zip {α : Type} : (c : List α) →
    (c.tail.zip c).map Prod.snd = c.dropLast
  | [] => rfl
  | [_] => rfl
  | x :: y :: rest => by
      have ih := map_snd_tail_zip (y :: rest)
      simp only [List.tail_cons] at ih ⊢
      rw [List.zip_cons_cons, List.map_cons, ih]
      rfl

theorem eq_singleton_of_nodup_of_all {α : Type} (l : List α) (a : α)
    (hnd : l.Nodup) (ha : a ∈ l) (hall : ∀ x ∈ l, x = a) : l = [a] := by
  cases l with
  | nil => cases ha
  | cons x rest =>
      obtain rfl := hall x (List.mem_cons_self x rest)
      cases rest with
      | nil => rfl
      | cons y rest2 =>
          have hy : y = x := hall y (by simp)
          rw [hy] at hnd
          simp [List.nodup_cons] at hnd

/-- C1: for an existing decision whose collected version set carries
supersedes edges forming a single linear chain `c` (each later element
superseding the previous one, in-set supersedes pairs exactly the
consecutive pairs of `c`), the resolver succeeds and returns the chain head:
the unique version not the target of a supersedes edge originating from
another version of the same decision. -/
theorem resolve_latest_linear_chain (g : Graph) (d : String) (c : List NodeId)
    (hne : c ≠ [])
    (hd : typeOf g (NodeId.decision d) = some "decision")
    (hnd : c.Nodup)
    (hperm : (VersionResolution.resolverVersionNodes g d).Perm c)
    (hchain : (VersionResolution.supersedesPairs g
        (VersionResolution.resolverVersionNodes g d)).Perm (c.tail.zip c)) :
    VersionResolution.get_latest_decision_version g d = .ok (c.getLast hne) := by
  have hvns_ne : VersionResolution.resolverVersionNodes g d ≠ [] := by
    intro h0
    have hlen := hperm.length_eq
    rw [h0] at hlen
    exact hne (List.length_eq_zero.mp hlen.symm)
  have hsup : ∀ x, x ∈ VersionResolution.supersededOf g
      (VersionResolution.resolverVersionNodes g d) ↔ x ∈ c.dropLast := by
    intro x
    rw [supersededOf_eq_map_snd]
    rw [(hchain.map Prod.snd).mem_iff]
    rw [map_snd_tail_zip]
  have hsplit : c.dropLast ++ [c.getLast hne] = c :=
    List.dropLast_append_getLast hne
  have hnd2 : (c.dropLast ++ [c.getLast hne]).Nodup := by rw [hsplit]; exact hnd
  have hdisj := (List.nodup_append.mp hnd2).2.2
  have hLnotd : c.getLast hne ∉ c.dropLast := fun hL =>
    hdisj hL (List.mem_singleton_self _)
  have hmemc : ∀ x, x ∈ c ↔ x ∈ c.dropLast ∨ x = c.getLast hne := by
    intro x
    have h2 : (x ∈ c.dropLast ++ [c.getLast hne]) ↔ x ∈ c := by rw [hsplit]
    rw [← h2]
    simp
  have hlc : VersionResolution.latestCandidates g d = [c.getLast hne] := by
    apply eq_singleton_of_nodup_of_all
    · exact (hperm.nodup_iff.mpr hnd).filter _
    · rw [VersionResolution.latestCandidates, List.mem_filter]
      refine ⟨hperm.mem_iff.mpr (List.getLast_mem hne), ?_⟩
      rw [decide_eq_true_eq]
      intro hmem
      exact hLnotd ((hsup _).mp hmem)
    · intro x hx
      rw [VersionResolution.latestCandidates, List.mem_filter,
        decide_eq_true_eq] at hx
      rcases (hmemc x).mp (hperm.mem_iff.mp hx.1) with h | h
      · exact absurd ((hsup x).mpr h) hx.2
      · exact h
  simp [VersionResolution.get_latest_decision_version, hd, hvns_ne, hlc]

theorem resolve_latest_linear_chain_witness :
    typeOf gChain (NodeId.decision "d1") = some "decision" ∧
    VersionResolution.get_latest_decision_version gChain "d1" =
      .ok (NodeId.version "v2") :=
  ⟨by decide,
    resolve_latest_linear_chain gChain "d1"
      [NodeId.version "v1", NodeId.version "v2"] (by decide) (by decide)
      (by decide) (by decide) (by decide)⟩

/-- C2: for an existing decision, the resolver fails with `NoVersions` when
the collected version set is empty, and with `AmbiguousLatest` carrying the
candidate count when the candidate set size is not exactly one; the two
error values are distinguishable, and no candidate is silently picked. -/
theorem resolver_failure_modes (g : Graph) (d : String)
    (hd : typeOf g (NodeId.decision d) = some "decision") :
    (VersionResolution.resolverVersionNodes g d = [] →
      VersionResolution.get_latest_decision_version g d =
        .error (.noVersions d)) ∧
    (VersionResolution.resolverVersionNodes g d ≠ [] →
      (VersionResolution.latestCandidates g d).length ≠ 1 →
      VersionResolution.get_latest_decision_version g d =
        .error (.ambiguousLatest d (VersionResolution.latestCandidates g d).length)) ∧
    (∀ d1 c d2, GraphError.ambiguousLatest d1 c ≠ GraphError.noVersions d2) := by
  refine ⟨fun h0 => ?_, fun hne hlen => ?_, fun d1 c d2 h => by cases h⟩
  · simp [VersionResolution.get_latest_decision_version, hd, h0]
  · rcases hl : VersionResolution.latestCandidates g d with _ | ⟨x, _ | ⟨y, rest⟩⟩
    · simp [VersionResolution.get_latest_decision_version, hd, hne, hl]
    · rw [hl] at hlen; simp at hlen
    · simp [VersionResolution.get_latest_decision_version, hd, hne, hl]

theorem resolver_failure_modes_witness :
    typeOf gTwoHeads (NodeId.decision "d1") = some "decision" ∧
    VersionResolution.resolverVersionNodes gTwoHeads "d1" ≠ [] ∧
    VersionResolution.get_latest_decision_version gTwoHeads "d1" =
      .error (.ambiguousLatest "d1" 2) := by
  refine ⟨by decide, by decide, ?_⟩
  have h := (resolver_failure_modes gTwoHeads "d1" (by decide)).2.1
    (by decide) (by decide)
  have h2 : (VersionResolution.latestCandidates gTwoHeads "d1").length = 2 := by decide
  rw [h2] at h
  exact h

/-- C5 counterexample: `link_supersedes` accepts two version nodes owned by
different decisions (`vA` of `dA`, `vB` of `dB`) and creates the
cross-decision supersedes edge instead of rejecting the attempt. -/
theorem link_supersedes_cross_decision_allowed :
    (gCross.getNode? (NodeId.version "vA")).bind (fun a => a.decision_id) =
      some "dA" ∧
    (gCross.getNode? (NodeId.version "vB")).bind (fun a => a.decision_id) =
      some "dB" ∧
    DecisionGraph.link_supersedes gCross "vB" "vA" =
      .ok (gCross.addEdgeRaw (NodeId.version "vB") (NodeId.version "vA")
        "supersedes") ∧
    (gCross.addEdgeRaw (NodeId.version "vB") (NodeId.version "vA")
      "supersedes").edgeType? (NodeId.version "vB") (NodeId.version "vA") =
      some "supersedes" := by decide

/-- C5 amended: `link_supersedes` validates only that both version nodes
exist; whenever they do it succeeds and creates the supersedes edge, with no
check that the two versions belong to the same decision. -/
theorem link_supersedes_checks_only_existence (g : Graph) (vn vp : String)
    (h1 : g.hasNode (NodeId.version vn) = true)
    (h2 : g.hasNode (NodeId.version vp) = true) :
    DecisionGraph.link_supersedes g vn vp =
      .ok (g.addEdgeRaw (NodeId.version vn) (NodeId.version vp) "supersedes") ∧
    (g.addEdgeRaw (NodeId.version vn) (NodeId.version vp)
      "supersedes").edgeType? (NodeId.version vn) (NodeId.version vp) =
      some "supersedes" := by
  constructor
  · simp [DecisionGraph.link_supersedes, h1, h2]
  · exact edgeType?_addEdgeRaw_self g _ _ _ h1 h2

theorem link_supersedes_checks_only_existence_witness :
    gCross.hasNode (NodeId.version "vB") = true ∧
    gCross.hasNode (NodeId.version "vA") = true ∧
    DecisionGraph.link_supersedes gCross "vB" "vA" =
      .ok (gCross.addEdgeRaw (NodeId.version "vB") (NodeId.version "vA")
        "supersedes") :=
  ⟨by decide, by decide,
    (link_supersedes_checks_only_existence gCross "vB" "vA" (by decide)
      (by decide)).1⟩

/-- C9: recording the same reference twice yields exactly the graph produced
by recording it once; the second call succeeds and is a no-op. -/
theorem record_reference_idempotent (g g' : Graph) (v s : String)
    (h : DecisionGraph.record_reference g v s = .ok g') :
    DecisionGraph.record_reference g' v s = .ok g' := by
  unfold DecisionGraph.record_reference at h ⊢
  by_cases hv : g.hasNode (NodeId.version v) = true
  · by_cases hs : g.hasNode (NodeId.stakeholder s) = true
    · simp only [hv, hs, not_true, if_false, if_neg, Except.ok.injEq] at h
      obtain rfl := h.symm
      have hnodes := addEdgeRaw_nodes g (NodeId.version v)
        (NodeId.stakeholder s) "referenced_by" hv hs
      have hv' : (g.addEdgeRaw (NodeId.version v) (NodeId.stakeholder s)
          "referenced_by").hasNode (NodeId.version v) = true := by
        rw [hasNode_of_nodes_eq hnodes]; exact hv
      have hs' : (g.addEdgeRaw (NodeId.version v) (NodeId.stakeholder s)
          "referenced_by").hasNode (NodeId.stakeholder s) = true := by
        rw [hasNode_of_nodes_eq hnodes]; exact hs
      simp only [hv', hs', not_true, if_false, if_neg, Except.ok.injEq]
      have hedges := addEdgeRaw_edges g (NodeId.version v)
        (NodeId.stakeholder s) "referenced_by" hv hs
      have hlook : lookupEdge (g.addEdgeRaw (NodeId.version v)
          (NodeId.stakeholder s) "referenced_by").edges (NodeId.version v)
          (NodeId.stakeholder s) =
          some ⟨NodeId.version v, NodeId.stakeholder s, "referenced_by"⟩ := by
        rw [hedges]; exact lookupEdge_upsertEdge_self g.edges _ _ _
      rw [addEdgeRaw_noop _ _ _ _ hv' hs' hlook]
    · simp [hv, hs] at h
  · simp [hv] at h

/-- Every edge in the graph connects nodes that are present: the invariant a
`networkx.DiGraph` maintains by construction (`add_edge` creates missing
endpoints), stated explicitly for the list representation. -/
def EdgeClosed (g : Graph) : Prop :=
  ∀ e ∈ g.edges, g.hasNode e.src = true ∧ g.hasNode e.dst = true

theorem hasNode_of_typeOf (g : Graph) (n : NodeId) (t : String)
    (h : typeOf g n = some t) : g.hasNode n = true := by
  unfold typeOf at h
  unfold Graph.hasNode
  rcases hg : g.getNode? n with _ | a
  · rw [hg] at h; cases h
  · rfl

theorem lookupEdge_eq_none (l : List Edge) (u v : NodeId)
    (h : ∀ e ∈ l, ¬(e.src = u ∧ e.dst = v)) : lookupEdge l u v = none := by
  induction l with
  | nil => rfl
  | cons e rest ih =>
      rw [lookupEdge, if_neg (h e (List.mem_cons_self e rest))]
      exact ih (fun e2 he2 => h e2 (List.mem_cons_of_mem e he2))

theorem lookupEdge_append_none (l1 l2 : List Edge) (u v : NodeId)
    (h : lookupEdge l1 u v = none) :
    lookupEdge (l1 ++ l2) u v = lookupEdge l2 u v := by
  induction l1 with
  | nil => rfl
  | cons e rest ih =>
      rw [lookupEdge] at h
      by_cases he : e.src = u ∧ e.dst = v
      · rw [if_pos he] at h; cases h
      · rw [if_neg he] at h
        rw [List.cons_append, lookupEdge, if_neg he]
        exact ih h

theorem addEdgeRaw_append (g : Graph) (u v : NodeId) (t : String)
    (hu : g.hasNode u = true) (hv : g.hasNode v = true)
    (hnone : lookupEdge g.edges u v = none) :
    (g.addEdgeRaw u v t).edges = g.edges ++ [⟨u, v, t⟩] := by
  rw [addEdgeRaw_edges g u v t hu hv]
  exact upsertEdge_of_lookup_none g.edges u v t hnone

theorem resolver_ok_inversion (g : Graph) (d : String) (x : NodeId)
    (h : VersionResolution.get_latest_decision_version g d = .ok x) :
    typeOf g (NodeId.decision d) = some "decision" ∧
    VersionResolution.latestCandidates g d = [x] := by
  unfold VersionResolution.get_latest_decision_version at h
  by_cases hd : typeOf g (NodeId.decision d) = some "decision"
  · rw [if_pos hd] at h
    by_cases hne : VersionResolution.resolverVersionNodes g d = []
    · rw [if_pos hne] at h; cases h
    · rw [if_neg hne] at h
      rcases hl : VersionResolution.latestCandidates g d with _ | ⟨y, _ | ⟨z, rest⟩⟩
      · rw [hl] at h; cases h
      · rw [hl] at h
        cases h
        exact ⟨hd, rfl⟩
      · rw [hl] at h; cases h
  · rw [if_neg hd] at h; cases h

theorem getNode?_of_nodes_eq {g g' : Graph} (h : g'.nodes = g.nodes) (n : NodeId) :
    g'.getNode? n = g.getNode? n := by
  simp [Graph.getNode?, h]

theorem mem_latestCandidates (g : Graph) (d : String) (x : NodeId) :
    x ∈ VersionResolution.latestCandidates g d ↔
      x ∈ VersionResolution.resolverVersionNodes g d ∧
      x ∉ VersionResolution.supersededOf g
        (VersionResolution.resolverVersionNodes g d) := by
  unfold VersionResolution.latestCandidates
  rw [List.mem_filter, decide_eq_true_eq]

theorem upsert_decision_version_fresh_eq (g : Graph)
    (pid d vid content : String) (conf : Rat) (reasoning ts : String) (L : NodeId)
    (hvnew : g.hasNode (NodeId.version vid) = false)
    (hdn : g.hasNode (NodeId.decision d) = true)
    (hr : VersionResolution.get_latest_decision_version g d = .ok L)
    (hLne : L ≠ NodeId.version vid) :
    MemoryAgent.upsert_decision_version g pid d vid content conf reasoning ts =
      .ok (MemoryAgent.stampProject
        (((g.updateNode (NodeId.version vid) (fun a =>
            { a with type := some "decision_version", version_id := some vid,
                     decision_id := some d, content := some content,
                     created_at := some ts, confidence := some conf,
                     reasoning := some reasoning })).addEdgeRaw
          (NodeId.decision d) (NodeId.version vid) "has_version").addEdgeRaw
          (NodeId.version vid) L "supersedes")
        (NodeId.version vid) pid) := by
  unfold MemoryAgent.upsert_decision_version DecisionGraph.add_decision_version
  simp [hvnew, hdn, hr, Except.toOption, hLne]

/-- The node type attribute the mutators store for each node-id namespace. -/
def nodeTypeTag : NodeId → String
  | NodeId.decision _ => "decision"
  | NodeId.version _ => "decision_version"
  | NodeId.stakeholder _ => "stakeholder"

/-- Every present node carries the `type` attribute of its id namespace,
as every embedded mutator writes it.  Arbitrary attribute dictionaries could
disagree; graphs built through the API never do. -/
def NodesTyped (g : Graph) : Prop :=
  ∀ p ∈ g.nodes, p.2.type = some (nodeTypeTag p.1)

/-- The latest-version invariant: every decision-typed node with a nonempty
collected version set has exactly one latest candidate. -/
def LatestInvariant (g : Graph) : Prop :=
  ∀ d, typeOf g (NodeId.decision d) = some "decision" →
    VersionResolution.resolverVersionNodes g d ≠ [] →
    (VersionResolution.latestCandidates g d).length = 1

/-- The decision ids of all decision-namespaced nodes, for reducing the
invariant to a finite check on a concrete graph. -/
def decisionIds (g : Graph) : List String :=
  g.nodes.filterMap (fun p =>
    match p.1 with
    | NodeId.decision d => some d
    | _ => none)

theorem lookupNode_mem (l : List (NodeId × NodeAttrs)) (n : NodeId) (a : NodeAttrs) :
    lookupNode l n = some a → (n, a) ∈ l := by
  induction l with
  | nil => intro h; cases h
  | cons p rest ih =>
      obtain ⟨p1, p2⟩ := p
      intro h
      rw [lookupNode] at h
      by_cases hp : (p1, p2).1 = n
      · rw [if_pos hp] at h
        cases h
        have hp2 : p1 = n := hp
        subst hp2
        exact List.mem_cons_self _ _
      · rw [if_neg hp] at h
        exact List.mem_cons_of_mem _ (ih h)

theorem typeOf_tag (g : Graph) (hT : NodesTyped g) (n : NodeId) (t : String)
    (h : typeOf g n = some t) : t = nodeTypeTag n := by
  unfold typeOf at h
  rcases hg : g.getNode? n with _ | a
  · rw [hg] at h; cases h
  · rw [hg] at h
    simp only [Option.some_bind] at h
    have htag : a.type = some (nodeTypeTag n) :=
      hT (n, a) (lookupNode_mem g.nodes n a hg)
    have h3 : some t = some (nodeTypeTag n) := by rw [← h]; exact htag
    exact Option.some.inj h3

theorem typed_of_mem_rvn (g : Graph) (d : String) (x : NodeId)
    (h : x ∈ VersionResolution.resolverVersionNodes g d) :
    typeOf g x = some "decision_version" := by
  rcases (mem_resolverVersionNodes g d x).mp h with ⟨e, he, h1, h2, h3, h4⟩
  rw [← h4]
  exact h3

theorem rvn_nil_of_absent (g : Graph) (d : String) (hC : EdgeClosed g)
    (h : g.hasNode (NodeId.decision d) = false) :
    VersionResolution.resolverVersionNodes g d = [] := by
  unfold VersionResolution.resolverVersionNodes
  have hfe : g.edges.filter (fun e =>
      decide (e.src = NodeId.decision d ∧ e.type = "has_version" ∧
        typeOf g e.dst = some "decision_version")) = [] := by
    rw [List.filter_eq_nil_iff]
    intro e he
    simp only [decide_eq_true_eq]
    rintro ⟨h1, h2, h3⟩
    have h4 := (hC e he).1
    rw [h1] at h4
    rw [h4] at h
    cases h
  rw [hfe]
  rfl

theorem filter_upsertEdge (l : List Edge) (u v : NodeId) (t : String)
    (p : Edge → Bool) (hall : ∀ t', p ⟨u, v, t'⟩ = false) :
    (upsertEdge l u v t).filter p = l.filter p := by
  induction l with
  | nil =>
      show List.filter p [⟨u, v, t⟩] = List.filter p []
      simp [List.filter_cons, hall t]
  | cons e rest ih =>
      by_cases he : e.src = u ∧ e.dst = v
      · have hpe : p e = false := by
          obtain ⟨es, ed, et⟩ := e
          have he1 : es = u := he.1
          have he2 : ed = v := he.2
          rw [he1, he2]
          exact hall et
        rw [upsertEdge, if_pos he]
        simp [List.filter_cons, hall t, hpe]
      · rw [upsertEdge, if_neg he]
        simp only [List.filter_cons, ih]

theorem typeOf_of_nodes_eq {g g' : Graph} (h : g'.nodes = g.nodes) (n : NodeId) :
    typeOf g' n = typeOf g n := by
  unfold typeOf
  rw [getNode?_of_nodes_eq h]

theorem latestInvariant_of_equiv (g g' : Graph)
    (hrvn : ∀ d, VersionResolution.resolverVersionNodes g' d =
      VersionResolution.resolverVersionNodes g d)
    (hsup : ∀ d, VersionResolution.supersededOf g'
        (VersionResolution.resolverVersionNodes g d) =
      VersionResolution.supersededOf g
        (VersionResolution.resolverVersionNodes g d))
    (hdec : ∀ d, typeOf g' (NodeId.decision d) = some "decision" →
      typeOf g (NodeId.decision d) = some "decision" ∨
      VersionResolution.resolverVersionNodes g d = [])
    (hInv : LatestInvariant g) : LatestInvariant g' := by
  intro d hd hne
  have hlc : VersionResolution.latestCandidates g' d =
      VersionResolution.latestCandidates g d := by
    unfold VersionResolution.latestCandidates
    rw [hrvn d, hsup d]
  rcases hdec d hd with h | h
  · rw [hlc]
    exact hInv d h (by rwa [hrvn d] at hne)
  · rw [hrvn d] at hne
    exact absurd h hne

theorem latestInvariant_addEdge (g : Graph) (u v : NodeId) (t : String)
    (hu : g.hasNode u = true) (hv : g.hasNode v = true)
    (hA : (∀ d, u ≠ NodeId.decision d) ∨ typeOf g v ≠ some "decision_version")
    (hB : typeOf g u ≠ some "decision_version" ∨
      typeOf g v ≠ some "decision_version")
    (hInv : LatestInvariant g) : LatestInvariant (g.addEdgeRaw u v t) := by
  have hnodes := addEdgeRaw_nodes g u v t hu hv
  have htype := typeOf_of_nodes_eq hnodes
  apply latestInvariant_of_equiv g _ ?_ ?_ ?_ hInv
  · intro d
    unfold VersionResolution.resolverVersionNodes
    rw [addEdgeRaw_edges g u v t hu hv]
    simp only [htype]
    rw [filter_upsertEdge g.edges u v t _ ?_]
    intro t'
    apply decide_eq_false
    rintro ⟨h1, h2, h3⟩
    rcases hA with hA | hA
    · exact hA d h1
    · exact hA h3
  · intro d
    unfold VersionResolution.supersededOf
    rw [addEdgeRaw_edges g u v t hu hv]
    rw [filter_upsertEdge g.edges u v t _ ?_]
    intro t'
    apply decide_eq_false
    rintro ⟨h1, h2, h3⟩
    rcases hB with hB | hB
    · exact hB (typed_of_mem_rvn g d u h1)
    · exact hB (typed_of_mem_rvn g d v h3)
  · intro d hd
    left
    rwa [htype] at hd

theorem latestInvariant_updateTyped (g : Graph) (n : NodeId)
    (f : NodeAttrs → NodeAttrs) (hT : NodesTyped g) (hC : EdgeClosed g)
    (htag : nodeTypeTag n ≠ "decision_version")
    (hty : ∀ a, (f a).type = some (nodeTypeTag n))
    (hInv : LatestInvariant g) : LatestInvariant (g.updateNode n f) := by
  apply latestInvariant_of_equiv g _ ?_ ?_ ?_ hInv
  · intro d
    unfold VersionResolution.resolverVersionNodes
    show (List.filter _ (g.updateNode n f).edges).map _ = _
    rw [updateNode_edges]
    refine congrArg _ (List.filter_congr ?_)
    intro e he
    by_cases hd : e.dst = n
    · have h1 : typeOf (g.updateNode n f) e.dst ≠ some "decision_version" := by
        rw [hd]
        unfold typeOf
        rw [getNode?_updateNode_self]
        simp only [Option.some_bind, hty]
        intro hcc
        injection hcc with hcc2
        exact htag hcc2
      have h2 : typeOf g e.dst ≠ some "decision_version" := by
        intro hcontra
        rw [hd] at hcontra
        have := typeOf_tag g hT n _ hcontra
        exact htag this.symm
      rw [decide_eq_false (fun hcc => h1 hcc.2.2),
        decide_eq_false (fun hcc => h2 hcc.2.2)]
    · have heq : typeOf (g.updateNode n f) e.dst = typeOf g e.dst := by
        unfold typeOf
        rw [getNode?_updateNode_ne _ _ _ _ hd]
      rw [heq]
  · intro d
    rfl
  · intro d hd
    by_cases hn : NodeId.decision d = n
    · subst hn
      by_cases hpres : g.hasNode (NodeId.decision d) = true
      · left
        unfold Graph.hasNode at hpres
        rcases hg : g.getNode? (NodeId.decision d) with _ | a
        · rw [hg] at hpres; cases hpres
        · have htyped := hT (NodeId.decision d, a)
            (lookupNode_mem g.nodes _ a hg)
          simp only at htyped
          unfold typeOf
          rw [hg]
          simp only [Option.some_bind]
          exact htyped
      · right
        rcases hb : g.hasNode (NodeId.decision d) with _ | _
        · exact rvn_nil_of_absent g d hC hb
        · exact absurd hb hpres
    · left
      have heq : typeOf (g.updateNode n f) (NodeId.decision d) =
          typeOf g (NodeId.decision d) := by
        unfold typeOf
        rw [getNode?_updateNode_ne _ _ _ _ hn]
      rwa [heq] at hd

/-- Version id `vid` is referenced for decision `d`: some collected version
node of `d` carries `vid` as its (truthy) version id and has at least one
`referenced_by` edge to a stakeholder-typed node with a truthy id. -/
def IsReferenced (g : Graph) (d vid : String) : Prop :=
  vid ≠ "" ∧ ∃ vn ∈ DriftDetection.driftVersionNodes g d,
    versionIdOf g vn = some vid ∧ DriftDetection.refTargets g vn ≠ []

/-- Invariant of the drift accumulation state: the referenced-versions set
holds exactly the union of the per-stakeholder version lists. -/
def DriftInv (st : List (String × List String) × List String) : Prop :=
  ∀ x, x ∈ st.2 ↔ ∃ e ∈ st.1, x ∈ e.2

theorem ne_nil_iff_exists_mem {α : Type} (l : List α) : l ≠ [] ↔ ∃ x, x ∈ l := by
  cases l with
  | nil => simp
  | cons h t =>
      exact ⟨fun _ => ⟨h, List.mem_cons_self h t⟩, fun _ => List.cons_ne_nil h t⟩

theorem svInsert_cons_eq (pl : List String) (rest : List (String × List String))
    (sid vid : String) :
    DriftDetection.svInsert ((sid, pl) :: rest) sid vid =
      if vid ∈ pl then ((sid, pl) :: rest, false)
      else ((sid, pl ++ [vid]) :: rest, true) := by
  simp [DriftDetection.svInsert]

theorem svInsert_cons_ne (p : String × List String) (rest : List (String × List String))
    (sid vid : String) (h : ¬ p.1 = sid) :
    DriftDetection.svInsert (p :: rest) sid vid =
      (p :: (DriftDetection.svInsert rest sid vid).1,
        (DriftDetection.svInsert rest sid vid).2) := by
  simp [DriftDetection.svInsert, h]

theorem svInsert_union (sv : List (String × List String)) (sid vid x : String) :
    (∃ e ∈ (DriftDetection.svInsert sv sid vid).1, x ∈ e.2) ↔
      (∃ e ∈ sv, x ∈ e.2) ∨ x = vid := by
  induction sv with
  | nil => simp [DriftDetection.svInsert]
  | cons p rest ih =>
      obtain ⟨ps, pl⟩ := p
      by_cases hp : ps = sid
      · subst hp
        rw [svInsert_cons_eq]
        by_cases hm : vid ∈ pl
        · rw [if_pos hm]
          constructor
          · exact Or.inl
          · rintro (h | rfl)
            · exact h
            · exact ⟨(ps, pl), List.mem_cons_self _ _, hm⟩
        · rw [if_neg hm]
          simp only [List.mem_cons]
          constructor
          · rintro ⟨e, he, hx⟩
            rcases he with rfl | he
            · simp only [List.mem_append, List.mem_singleton] at hx
              rcases hx with hx | rfl
              · exact Or.inl ⟨(ps, pl), Or.inl rfl, hx⟩
              · exact Or.inr rfl
            · exact Or.inl ⟨e, Or.inr he, hx⟩
          · rintro (⟨e, he, hx⟩ | rfl)
            · rcases he with rfl | he
              · exact ⟨(ps, pl ++ [vid]), Or.inl rfl, List.mem_append_left _ hx⟩
              · exact ⟨e, Or.inr he, hx⟩
            · exact ⟨(ps, pl ++ [x]), Or.inl rfl, by simp⟩
      · rw [svInsert_cons_ne _ _ _ _ hp]
        simp only [List.mem_cons]
        constructor
        · rintro ⟨e, he, hx⟩
          rcases he with rfl | he
          · exact Or.inl ⟨(ps, pl), Or.inl rfl, hx⟩
          · rcases ih.mp ⟨e, he, hx⟩ with ⟨e2, he2, hx2⟩ | h
            · exact Or.inl ⟨e2, Or.inr he2, hx2⟩
            · exact Or.inr h
        · rintro (⟨e, he, hx⟩ | h)
          · rcases he with rfl | he
            · exact ⟨(ps, pl), Or.inl rfl, hx⟩
            · rcases ih.mpr (Or.inl ⟨e, he, hx⟩) with ⟨e2, he2, hx2⟩
              exact ⟨e2, Or.inr he2, hx2⟩
          · rcases ih.mpr (Or.inr h) with ⟨e2, he2, hx2⟩
            exact ⟨e2, Or.inr he2, hx2⟩

theorem svInsert_false_mem (sv : List (String × List String)) (sid vid : String) :
    (DriftDetection.svInsert sv sid vid).2 = false → ∃ e ∈ sv, vid ∈ e.2 := by
  induction sv with
  | nil => intro h; simp [DriftDetection.svInsert] at h
  | cons p rest ih =>
      obtain ⟨ps, pl⟩ := p
      by_cases hp : ps = sid
      · subst hp
        rw [svInsert_cons_eq]
        by_cases hm : vid ∈ pl
        · intro _
          exact ⟨(ps, pl), List.mem_cons_self _ _, hm⟩
        · rw [if_neg hm]
          intro h
          simp at h
      · rw [svInsert_cons_ne _ _ _ _ hp]
        intro h
        rcases ih h with ⟨e, he, hx⟩
        exact ⟨e, List.mem_cons_of_mem _ he, hx⟩

theorem refStep_props (vid : String) (st : List (String × List String) × List String)
    (sid : String) (hInv : DriftInv st) :
    (∀ x, x ∈ (DriftDetection.refStep vid st sid).2 ↔ x ∈ st.2 ∨ x = vid) ∧
    DriftInv (DriftDetection.refStep vid st sid) := by
  have hmem : ∀ x, x ∈ (DriftDetection.refStep vid st sid).2 ↔ x ∈ st.2 ∨ x = vid := by
    intro x
    unfold DriftDetection.refStep
    by_cases hb : (DriftDetection.svInsert st.1 sid vid).2 = true
    · simp only [hb, if_true, if_pos]
      by_cases hv : vid ∈ st.2
      · simp only [hv, if_true, if_pos]
        constructor
        · exact Or.inl
        · rintro (h | rfl)
          · exact h
          · exact hv
      · simp only [hv, if_false, if_neg, List.mem_append, List.mem_singleton]
    · rw [Bool.not_eq_true] at hb
      simp only [hb, Bool.false_eq_true, if_false, if_neg]
      have hv : vid ∈ st.2 := (hInv vid).mpr (svInsert_false_mem st.1 sid vid hb)
      constructor
      · exact Or.inl
      · rintro (h | rfl)
        · exact h
        · exact hv
  refine ⟨hmem, fun x => ?_⟩
  rw [hmem x]
  show x ∈ st.2 ∨ x = vid ↔ ∃ e ∈ (DriftDetection.svInsert st.1 sid vid).1, x ∈ e.2
  rw [svInsert_union, ← hInv x]

theorem foldl_refStep_props (vid : String) (sids : List String) :
    ∀ st, DriftInv st →
      (∀ x, x ∈ (sids.foldl (DriftDetection.refStep vid) st).2 ↔
        x ∈ st.2 ∨ (sids ≠ [] ∧ x = vid)) ∧
      DriftInv (sids.foldl (DriftDetection.refStep vid) st) := by
  induction sids with
  | nil => intro st hInv; exact ⟨by simp, hInv⟩
  | cons s rest ih =>
      intro st hInv
      have h1 := refStep_props vid st s hInv
      have h2 := ih (DriftDetection.refStep vid st s) h1.2
      refine ⟨fun x => ?_, h2.2⟩
      rw [List.foldl_cons, (h2.1 x), (h1.1 x)]
      constructor
      · rintro ((h | rfl) | ⟨-, rfl⟩)
        · exact Or.inl h
        · exact Or.inr ⟨List.cons_ne_nil s rest, rfl⟩
        · exact Or.inr ⟨List.cons_ne_nil s rest, rfl⟩
      · rintro (h | ⟨-, rfl⟩)
        · exact Or.inl (Or.inl h)
        · exact Or.inl (Or.inr rfl)

theorem versionStep_props (g : Graph) (st : List (String × List String) × List String)
    (vn : NodeId) (hInv : DriftInv st) :
    (∀ x, x ∈ (DriftDetection.versionStep g st vn).2 ↔
      x ∈ st.2 ∨ (versionIdOf g vn = some x ∧ x ≠ "" ∧
        DriftDetection.refTargets g vn ≠ [])) ∧
    DriftInv (DriftDetection.versionStep g st vn) := by
  unfold DriftDetection.versionStep
  rcases hvid : versionIdOf g vn with _ | vid
  · refine ⟨fun x => ?_, hInv⟩
    simp
  · by_cases hv : vid = ""
    · simp only [hv, if_true, if_pos]
      refine ⟨fun x => ?_, hInv⟩
      simp only [Option.some.injEq]
      constructor
      · exact Or.inl
      · rintro (h | ⟨rfl, hne, -⟩)
        · exact h
        · exact absurd rfl hne
    · simp only [hv, if_false, if_neg]
      have h := foldl_refStep_props vid (DriftDetection.refTargets g vn) st hInv
      refine ⟨fun x => ?_, h.2⟩
      rw [h.1 x]
      simp only [Option.some.injEq]
      constructor
      · rintro (h2 | ⟨hne, rfl⟩)
        · exact Or.inl h2
        · exact Or.inr ⟨rfl, hv, hne⟩
      · rintro (h2 | ⟨rfl, -, hne⟩)
        · exact Or.inl h2
        · exact Or.inr ⟨hne, rfl⟩

theorem foldl_versionStep_props (g : Graph) (vns : List NodeId) :
    ∀ st, DriftInv st →
      (∀ x, x ∈ (vns.foldl (DriftDetection.versionStep g) st).2 ↔
        x ∈ st.2 ∨ ∃ vn ∈ vns, versionIdOf g vn = some x ∧ x ≠ "" ∧
          DriftDetection.refTargets g vn ≠ []) ∧
      DriftInv (vns.foldl (DriftDetection.versionStep g) st) := by
  induction vns with
  | nil => intro st hInv; exact ⟨by simp, hInv⟩
  | cons vn rest ih =>
      intro st hInv
      have h1 := versionStep_props g st vn hInv
      have h2 := ih (DriftDetection.versionStep g st vn) h1.2
      refine ⟨fun x => ?_, h2.2⟩
      rw [List.foldl_cons, (h2.1 x), (h1.1 x)]
      simp only [List.mem_cons]
      constructor
      · rintro ((h | h) | ⟨w, hw, hp⟩)
        · exact Or.inl h
        · exact Or.inr ⟨vn, Or.inl rfl, h⟩
        · exact Or.inr ⟨w, Or.inr hw, hp⟩
      · rintro (h | ⟨w, hw | hw, hp⟩)
        · exact Or.inl (Or.inl h)
        · subst hw
          exact Or.inl (Or.inr hp)
        · exact Or.inr ⟨w, hw, hp⟩

theorem mem_sortStr (l : List String) (x : String) :
    x ∈ DriftDetection.sortStr l ↔ x ∈ l :=
  (l.perm_insertionSort (fun a b => a ≤ b)).mem_iff

theorem sortStr_sorted (l : List String) :
    (DriftDetection.sortStr l).Sorted (fun a b => a ≤ b) :=
  List.sorted_insertionSort (fun a b => a ≤ b) l

theorem sortStr_nodup (l : List String) (h : l.Nodup) :
    (DriftDetection.sortStr l).Nodup :=
  (l.perm_insertionSort (fun a b => a ≤ b)).nodup_iff.mpr h

theorem refStep_rv_nodup (vid : String)
    (st : List (String × List String) × List String) (sid : String)
    (h : st.2.Nodup) : (DriftDetection.refStep vid st sid).2.Nodup := by
  unfold DriftDetection.refStep
  by_cases hb : (DriftDetection.svInsert st.1 sid vid).2 = true
  · simp only [hb, if_true, if_pos]
    by_cases hv : vid ∈ st.2
    · simp only [hv, if_true, if_pos]
      exact h
    · simp only [hv, if_false, if_neg]
      rw [List.nodup_append]
      exact ⟨h, List.nodup_singleton _,
        fun a ha hb2 => hv (by rwa [List.mem_singleton.mp hb2] at ha)⟩
  · rw [Bool.not_eq_true] at hb
    simp only [hb, Bool.false_eq_true, if_false, if_neg]
    exact h

theorem foldl_refStep_rv_nodup (vid : String) (sids : List String) :
    ∀ st, st.2.Nodup →
      ((sids.foldl (DriftDetection.refStep vid) st).2).Nodup := by
  induction sids with
  | nil => intro st h; exact h
  | cons s rest ih =>
      intro st h
      exact ih (DriftDetection.refStep vid st s) (refStep_rv_nodup vid st s h)

theorem versionStep_rv_nodup (g : Graph)
    (st : List (String × List String) × List String) (vn : NodeId)
    (h : st.2.Nodup) : (DriftDetection.versionStep g st vn).2.Nodup := by
  unfold DriftDetection.versionStep
  rcases versionIdOf g vn with _ | vid
  · exact h
  · by_cases hv : vid = ""
    · simp only [hv, if_true, if_pos]
      exact h
    · simp only [hv, if_false, if_neg]
      exact foldl_refStep_rv_nodup vid (DriftDetection.refTargets g vn) st h

theorem foldl_versionStep_rv_nodup (g : Graph) (vns : List NodeId) :
    ∀ st, st.2.Nodup →
      ((vns.foldl (DriftDetection.versionStep g) st).2).Nodup := by
  induction vns with
  | nil => intro st h; exact h
  | cons vn rest ih =>
      intro st h
      exact ih (DriftDetection.versionStep g st vn) (versionStep_rv_nodup g st vn h)

theorem mem_driftVersionNodes (g : Graph) (d : String) (x : NodeId) :
    x ∈ DriftDetection.driftVersionNodes g d ↔
      ∃ e ∈ g.edges, e.src = NodeId.decision d ∧ e.type = "has_version" ∧
        typeOf g e.dst = some "decision_version" ∧
        (g.getNode? e.dst).bind (fun a => a.decision_id) = some d ∧ e.dst = x := by
  unfold DriftDetection.driftVersionNodes
  simp only [List.mem_map, List.mem_filter, decide_eq_true_eq]
  constructor
  · rintro ⟨e, ⟨he, h1, h2, h3, h4⟩, h5⟩
    exact ⟨e, he, h1, h2, h3, h4, h5⟩
  · rintro ⟨e, he, h1, h2, h3, h4, h5⟩
    exact ⟨e, ⟨he, h1, h2, h3, h4⟩, h5⟩

theorem mem_refTargets (g : Graph) (vn : NodeId) (s : String) :
    s ∈ DriftDetection.refTargets g vn ↔
      ∃ e ∈ g.edges, e.src = vn ∧ e.type = "referenced_by" ∧
        typeOf g e.dst = some "stakeholder" ∧
        stakeholderIdOf g e.dst = some s ∧ s ≠ "" := by
  unfold DriftDetection.refTargets
  rw [List.mem_filterMap]
  constructor
  · rintro ⟨e, hmem, hf⟩
    rw [List.mem_filter, decide_eq_true_eq] at hmem
    rcases hmem with ⟨he, h1, h2, h3⟩
    rcases hid : stakeholderIdOf g e.dst with _ | sid
    · rw [hid] at hf; cases hf
    · rw [hid] at hf
      by_cases hse : sid = ""
      · simp [hse] at hf
      · simp only [hse, if_false, if_neg, Option.some.injEq] at hf
        subst hf
        exact ⟨e, he, h1, h2, h3, hid, hse⟩
  · rintro ⟨e, he, h1, h2, h3, h4, h5⟩
    refine ⟨e, ?_, ?_⟩
    · rw [List.mem_filter, decide_eq_true_eq]
      exact ⟨he, h1, h2, h3⟩
    · rw [h4]
      simp [h5]

theorem one_lt_length_iff_two_mem (l : List String) (h : l.Nodup) :
    1 < l.length ↔ ∃ a b, a ≠ b ∧ a ∈ l ∧ b ∈ l := by
  cases l with
  | nil => simp
  | cons x t =>
      cases t with
      | nil =>
          constructor
          · intro h1; simp at h1
          · rintro ⟨a, b, hab, ha, hb⟩
            rw [List.mem_singleton] at ha hb
            exact absurd (ha.trans hb.symm) hab
      | cons y t2 =>
          constructor
          · intro _
            refine ⟨x, y, ?_, by simp, by simp⟩
            exact fun hxy => (List.nodup_cons.mp h).1
              (hxy ▸ List.mem_cons_self y t2)
          · intro _
            simp only [List.length_cons]
            omega

theorem detect_referenced_iff (g : Graph) (d : String)
    (hd : typeOf g (NodeId.decision d) = some "decision") (vid : String) :
    vid ∈ (DriftDetection.detect_decision_drift g d).referenced_versions ↔
      IsReferenced g d vid := by
  unfold DriftDetection.detect_decision_drift
  rw [if_pos hd]
  dsimp only
  rw [mem_sortStr]
  have h := foldl_versionStep_props g (DriftDetection.driftVersionNodes g d)
    ([], []) (fun x => by simp)
  rw [h.1 vid]
  simp only [List.not_mem_nil, false_or]
  unfold IsReferenced
  constructor
  · rintro ⟨vn, hvn, h1, h2, h3⟩
    exact ⟨h2, vn, hvn, h1, h3⟩
  · rintro ⟨h2, vn, hvn, h1, h3⟩
    exact ⟨vn, hvn, h1, h2, h3⟩

theorem detect_referenced_sorted (g : Graph) (d : String) :
    (DriftDetection.detect_decision_drift g d).referenced_versions.Sorted
      (fun a b => a ≤ b) := by
  unfold DriftDetection.detect_decision_drift
  by_cases hd : typeOf g (NodeId.decision d) = some "decision"
  · rw [if_pos hd]
    exact sortStr_sorted _
  · rw [if_neg hd]
    exact List.sorted_nil

theorem detect_referenced_nodup (g : Graph) (d : String) :
    (DriftDetection.detect_decision_drift g d).referenced_versions.Nodup := by
  unfold DriftDetection.detect_decision_drift
  by_cases hd : typeOf g (NodeId.decision d) = some "decision"
  · rw [if_pos hd]
    exact sortStr_nodup _
      (foldl_versionStep_rv_nodup g (DriftDetection.driftVersionNodes g d)
        ([], []) List.nodup_nil)
  · rw [if_neg hd]
    exact List.nodup_nil

theorem detect_drift_eq_length (g : Graph) (d : String) :
    (DriftDetection.detect_decision_drift g d).drift_detected =
      decide (1 < (DriftDetection.detect_decision_drift g d).referenced_versions.length) := by
  unfold DriftDetection.detect_decision_drift
  by_cases hd : typeOf g (NodeId.decision d) = some "decision"
  · rw [if_pos hd]
  · rw [if_neg hd]
    simp

theorem isReferenced_congr (g g2 : Graph) (d : String)
    (hn : g2.nodes = g.nodes) (he : g2.edges.Perm g.edges) (vid : String) :
    IsReferenced g2 d vid ↔ IsReferenced g d vid := by
  have hgn : ∀ n, g2.getNode? n = g.getNode? n := fun n => by
    simp [Graph.getNode?, hn]
  have ht : ∀ n, typeOf g2 n = typeOf g n := fun n => by
    simp [typeOf, hgn]
  have hvi : ∀ n, versionIdOf g2 n = versionIdOf g n := fun n => by
    simp [versionIdOf, hgn]
  have hsi : ∀ n, stakeholderIdOf g2 n = stakeholderIdOf g n := fun n => by
    simp [stakeholderIdOf, hgn]
  have hdvn : ∀ x, x ∈ DriftDetection.driftVersionNodes g2 d ↔
      x ∈ DriftDetection.driftVersionNodes g d := by
    intro x
    rw [mem_driftVersionNodes, mem_driftVersionNodes]
    simp only [ht, hgn, he.mem_iff]
  have hrt : ∀ vn, DriftDetection.refTargets g2 vn ≠ [] ↔
      DriftDetection.refTargets g vn ≠ [] := by
    intro vn
    rw [ne_nil_iff_exists_mem, ne_nil_iff_exists_mem]
    constructor
    · rintro ⟨s, hs⟩
      rw [mem_refTargets] at hs
      simp only [ht, hsi, he.mem_iff] at hs
      exact ⟨s, (mem_refTargets g vn s).mpr hs⟩
    · rintro ⟨s, hs⟩
      rw [mem_refTargets] at hs
      refine ⟨s, (mem_refTargets g2 vn s).mpr ?_⟩
      simp only [ht, hsi, he.mem_iff]
      exact hs
  unfold IsReferenced
  constructor
  · rintro ⟨h1, vn, hvn, h2, h3⟩
    rw [hvi] at h2
    exact ⟨h1, vn, (hdvn vn).mp hvn, h2, (hrt vn).mp h3⟩
  · rintro ⟨h1, vn, hvn, h2, h3⟩
    rw [← hvi] at h2
    exact ⟨h1, vn, (hdvn vn).mpr hvn, h2, (hrt vn).mpr h3⟩

/-- C6: for an existing decision, `referenced_versions` is the sorted,
duplicate-free list of exactly the version ids referenced via
`referenced_by` edges across all stakeholders; `drift_detected` is true iff
more than one distinct version id is referenced; and both outputs are the
same on any graph with the same nodes and a permutation of the edges, i.e.
independent of edge insertion order. -/
theorem detect_drift_characterization (g : Graph) (d : String)
    (hd : typeOf g (NodeId.decision d) = some "decision") :
    (∀ vid, vid ∈ (DriftDetection.detect_decision_drift g d).referenced_versions ↔
      IsReferenced g d vid) ∧
    (DriftDetection.detect_decision_drift g d).referenced_versions.Sorted
      (fun a b => a ≤ b) ∧
    (DriftDetection.detect_decision_drift g d).referenced_versions.Nodup ∧
    ((DriftDetection.detect_decision_drift g d).drift_detected = true ↔
      ∃ v1 v2, v1 ≠ v2 ∧ IsReferenced g d v1 ∧ IsReferenced g d v2) ∧
    (∀ g2 : Graph, g2.nodes = g.nodes → g2.edges.Perm g.edges →
      (DriftDetection.detect_decision_drift g2 d).referenced_versions =
        (DriftDetection.detect_decision_drift g d).referenced_versions ∧
      (DriftDetection.detect_decision_drift g2 d).drift_detected =
        (DriftDetection.detect_decision_drift g d).drift_detected) := by
  refine ⟨detect_referenced_iff g d hd, detect_referenced_sorted g d,
    detect_referenced_nodup g d, ?_, ?_⟩
  · rw [detect_drift_eq_length, decide_eq_true_eq,
      one_lt_length_iff_two_mem _ (detect_referenced_nodup g d)]
    constructor
    · rintro ⟨a, b, hab, ha, hb⟩
      exact ⟨a, b, hab, (detect_referenced_iff g d hd a).mp ha,
        (detect_referenced_iff g d hd b).mp hb⟩
    · rintro ⟨a, b, hab, ha, hb⟩
      exact ⟨a, b, hab, (detect_referenced_iff g d hd a).mpr ha,
        (detect_referenced_iff g d hd b).mpr hb⟩
  · intro g2 hn he
    have hd2 : typeOf g2 (NodeId.decision d) = some "decision" := by
      rw [show typeOf g2 (NodeId.decision d) = typeOf g (NodeId.decision d) from
        by simp [typeOf, Graph.getNode?, hn]]
      exact hd
    have hmem : ∀ vid,
        vid ∈ (DriftDetection.detect_decision_drift g2 d).referenced_versions ↔
        vid ∈ (DriftDetection.detect_decision_drift g d).referenced_versions := by
      intro vid
      rw [detect_referenced_iff g2 d hd2, detect_referenced_iff g d hd,
        isReferenced_congr g g2 d hn he]
    have hperm : (DriftDetection.detect_decision_drift g2 d).referenced_versions.Perm
        (DriftDetection.detect_decision_drift g d).referenced_versions := by
      apply List.perm_of_nodup_nodup_toFinset_eq (detect_referenced_nodup g2 d)
        (detect_referenced_nodup g d)
      apply Finset.ext
      intro a
      rw [List.mem_toFinset, List.mem_toFinset]
      exact hmem a
    have heq : (DriftDetection.detect_decision_drift g2 d).referenced_versions =
        (DriftDetection.detect_decision_drift g d).referenced_versions :=
      List.eq_of_perm_of_sorted hperm (detect_referenced_sorted g2 d)
        (detect_referenced_sorted g d)
    refine ⟨heq, ?_⟩
    rw [detect_drift_eq_length, detect_drift_eq_length, heq]

/-- Decision `d1` with chained versions `v1`, `v2`; stakeholder `s1`
references `v1` and stakeholder `s2` references `v2`. -/
def gDrift : Graph :=
  { nodes := [
      (NodeId.decision "d1",
        { type := some "decision", decision_id := some "d1",
          title := some "T1", created_at := some "t0" }),
      (NodeId.version "v1",
        { type := some "decision_version", version_id := some "v1",
          decision_id := some "d1", content := some "c1",
          created_at := some "t1", confidence := some 1,
          reasoning := some "r1" }),
      (NodeId.version "v2",
        { type := some "decision_version", version_id := some "v2",
          decision_id := some "d1", content := some "c2",
          created_at := some "t2", confidence := some 1,
          reasoning := some "r2" }),
      (NodeId.stakeholder "s1",
        { type := some "stakeholder", stakeholder_id := some "s1",
          name := some "Alice", department := some "product",
          role := some "Owner", scoped_projects := some ["p1"] }),
      (NodeId.stakeholder "s2",
        { type := some "stakeholder", stakeholder_id := some "s2",
          name := some "Bob", department := some "engineering",
          role := some "Contributor", scoped_projects := some ["p1"] })],
    edges := [
      ⟨NodeId.decision "d1", NodeId.version "v1", "has_version"⟩,
      ⟨NodeId.decision "d1", NodeId.version "v2", "has_version"⟩,
      ⟨NodeId.version "v2", NodeId.version "v1", "supersedes"⟩,
      ⟨NodeId.version "v1", NodeId.stakeholder "s1", "referenced_by"⟩,
      ⟨NodeId.version "v2", NodeId.stakeholder "s2", "referenced_by"⟩] }

theorem detect_drift_characterization_witness :
    typeOf gDrift (NodeId.decision "d1") = some "decision" ∧
    (DriftDetection.detect_decision_drift gDrift "d1").stakeholder_versions =
      [("s1", ["v1"]), ("s2", ["v2"])] ∧
    (∀ vid, vid ∈ (DriftDetection.detect_decision_drift gDrift
        "d1").referenced_versions ↔ IsReferenced gDrift "d1" vid) ∧
    ((DriftDetection.detect_decision_drift gDrift "d1").drift_detected = true ↔
      ∃ v1 v2, v1 ≠ v2 ∧ IsReferenced gDrift "d1" v1 ∧
        IsReferenced gDrift "d1" v2) :=
  ⟨by decide, by decide,
    (detect_drift_characterization gDrift "d1" (by decide)).1,
    (detect_drift_characterization gDrift "d1" (by decide)).2.2.2.1⟩

/-- Decision `d1` with versions `v1`, `v2` and an Observer stakeholder `o1`
linked by an `informed_of` edge to `v2` only. -/
def gObs : Graph :=
  { nodes := [
      (NodeId.decision "d1",
        { type := some "decision", decision_id := some "d1",
          title := some "T1", created_at := some "t0" }),
      (NodeId.version "v1",
        { type := some "decision_version", version_id := some "v1",
          decision_id := some "d1", content := some "c1",
          created_at := some "t1", confidence := some 1,
          reasoning := some "r1" }),
      (NodeId.version "v2",
        { type := some "decision_version", version_id := some "v2",
          decision_id := some "d1", content := some "c2",
          created_at := some "t2", confidence := some 1,
          reasoning := some "r2" }),
      (NodeId.stakeholder "o1",
        { type := some "stakeholder", stakeholder_id := some "o1",
          name := some "Olive", department := some "operations",
          role := some "Observer", scoped_projects := some ["p1"] })],
    edges := [
      ⟨NodeId.decision "d1", NodeId.version "v1", "has_version"⟩,
      ⟨NodeId.decision "d1", NodeId.version "v2", "has_version"⟩,
      ⟨NodeId.version "v2", NodeId.version "v1", "supersedes"⟩,
      ⟨NodeId.stakeholder "o1", NodeId.version "v2", "informed_of"⟩] }

/-- The specification of `restrict` membership actually enforced by the
code: an Observer-roled stakeholder node with a truthy id and an incoming
edge into the decision node or into the specific queried version node. -/
def RestrictSpec (g : Graph) (d v s : String) : Prop :=
  s ≠ "" ∧ ∃ src : NodeId,
    (∃ e ∈ g.edges, e.src = src ∧
      (e.dst = NodeId.decision d ∨ e.dst = NodeId.version v)) ∧
    typeOf g src = some "stakeholder" ∧ roleOf g src = some "Observer" ∧
    stakeholderIdOf g src = some s

theorem mem_sortedSet (l : List String) (s : String) :
    s ∈ Stakeholders.sortedSet l ↔ s ∈ l := by
  unfold Stakeholders.sortedSet DriftDetection.sortStr
  rw [(l.dedup.perm_insertionSort (fun a b => a ≤ b)).mem_iff]
  exact List.mem_dedup

theorem sortedSet_sorted (l : List String) :
    (Stakeholders.sortedSet l).Sorted (fun a b => a ≤ b) :=
  List.sorted_insertionSort (fun a b => a ≤ b) l.dedup

theorem sortedSet_nodup (l : List String) : (Stakeholders.sortedSet l).Nodup :=
  (l.dedup.perm_insertionSort (fun a b => a ≤ b)).nodup_iff.mpr l.nodup_dedup

theorem mem_linkedSources (g : Graph) (n : NodeId) (x : NodeId) :
    x ∈ Stakeholders.linkedSources g n ↔ ∃ e ∈ g.edges, e.dst = n ∧ e.src = x := by
  unfold Stakeholders.linkedSources
  simp [List.mem_map, List.mem_filter]
  constructor
  · rintro ⟨e, ⟨he, hd⟩, hs⟩
    exact ⟨e, he, hd, hs⟩
  · rintro ⟨e, he, hd, hs⟩
    exact ⟨e, ⟨he, hd⟩, hs⟩

theorem mem_observerIds (g : Graph) (sources : List NodeId) (s : String) :
    s ∈ Stakeholders.observerIds g sources ↔
      ∃ src ∈ sources, typeOf g src = some "stakeholder" ∧
        roleOf g src = some "Observer" ∧ stakeholderIdOf g src = some s ∧
        s ≠ "" := by
  unfold Stakeholders.observerIds
  rw [List.mem_filterMap]
  constructor
  · rintro ⟨src, hsrc, hf⟩
    by_cases hc : typeOf g src = some "stakeholder" ∧ roleOf g src = some "Observer"
    · rw [if_pos hc] at hf
      rcases hid : stakeholderIdOf g src with _ | sid
      · rw [hid] at hf; cases hf
      · rw [hid] at hf
        by_cases he : sid = ""
        · simp [he] at hf
        · simp only [he, if_false, Option.some.injEq] at hf
          subst hf
          exact ⟨src, hsrc, hc.1, hc.2, hid, he⟩
    · rw [if_neg hc] at hf; cases hf
  · rintro ⟨src, hsrc, h1, h2, h3, h4⟩
    refine ⟨src, hsrc, ?_⟩
    rw [if_pos ⟨h1, h2⟩, h3]
    simp [h4]

/-- C8 amended: for an existing decision node and existing version node,
`compute_routing_targets` succeeds and its `restrict` group is exactly the
sorted, deduplicated set of truthy Observer stakeholder ids having an
incoming edge into the decision node or into the specific queried version
node; Observers linked only to other versions of the decision are not
included (see the counterexample). -/
theorem compute_routing_restrict_characterization (g : Graph) (d v : String)
    (hd : g.hasNode (NodeId.decision d) = true)
    (hv : g.hasNode (NodeId.version v) = true) :
    ∃ r, Stakeholders.compute_routing_targets g d v = .ok r ∧
      (∀ s, s ∈ r.restrict ↔ RestrictSpec g d v s) ∧
      r.restrict.Sorted (fun a b => a ≤ b) ∧ r.restrict.Nodup := by
  have hok : Stakeholders.compute_routing_targets g d v =
      .ok { amplify := Stakeholders.sortedSet
              (Stakeholders.stakeholders_for_edge g (NodeId.decision d) "owns"
                ["Owner"] ++
               Stakeholders.stakeholders_for_edge g (NodeId.decision d)
                "contributes" ["Contributor"]),
            inform := Stakeholders.sortedSet
              (Stakeholders.stakeholders_for_edge g (NodeId.version v)
                "informed_of" ["Informed"] ++
               Stakeholders.stakeholders_for_edge g (NodeId.version v)
                "affected_by" ["Affected"]),
            restrict := Stakeholders.sortedSet
              (Stakeholders.observerIds g
                (Stakeholders.linkedSources g (NodeId.decision d) ++
                 Stakeholders.linkedSources g (NodeId.version v))) } := by
    simp [Stakeholders.compute_routing_targets, hd, hv]
  refine ⟨_, hok, fun s => ?_, ?_, ?_⟩
  · dsimp only
    rw [mem_sortedSet, mem_observerIds]
    unfold RestrictSpec
    constructor
    · rintro ⟨src, hsrc, h1, h2, h3, h4⟩
      rw [List.mem_append, mem_linkedSources, mem_linkedSources] at hsrc
      refine ⟨h4, src, ?_, h1, h2, h3⟩
      rcases hsrc with ⟨e, he, hdst, hs⟩ | ⟨e, he, hdst, hs⟩
      · exact ⟨e, he, hs, Or.inl hdst⟩
      · exact ⟨e, he, hs, Or.inr hdst⟩
    · rintro ⟨h4, src, ⟨e, he, hs, hdst⟩, h1, h2, h3⟩
      refine ⟨src, ?_, h1, h2, h3, h4⟩
      rw [List.mem_append, mem_linkedSources, mem_linkedSources]
      rcases hdst with hdst | hdst
      · exact Or.inl ⟨e, he, hdst, hs⟩
      · exact Or.inr ⟨e, he, hdst, hs⟩
  · exact sortedSet_sorted _
  · exact sortedSet_nodup _

theorem compute_routing_restrict_characterization_witness :
    gObs.hasNode (NodeId.decision "d1") = true ∧
    gObs.hasNode (NodeId.version "v1") = true ∧
    (∃ r, Stakeholders.compute_routing_targets gObs "d1" "v1" = .ok r ∧
      (∀ s, s ∈ r.restrict ↔ RestrictSpec gObs "d1" "v1" s) ∧
      r.restrict.Sorted (fun a b => a ≤ b) ∧ r.restrict.Nodup) :=
  ⟨by decide, by decide,
    compute_routing_restrict_characterization gObs "d1" "v1" (by decide)
      (by decide)⟩

/-- C8 counterexample: stakeholder `o1` has role Observer and an edge to
version `v2` of decision `d1`, yet routing for `(d1, v1)` returns an empty
`restrict` group: the code only inspects incoming edges of the decision node
and of the specific queried version node, not of every version of the
decision. -/
theorem compute_routing_restrict_misses_other_version :
    typeOf gObs (NodeId.stakeholder "o1") = some "stakeholder" ∧
    roleOf gObs (NodeId.stakeholder "o1") = some "Observer" ∧
    (⟨NodeId.stakeholder "o1", NodeId.version "v2", "informed_of"⟩ : Edge) ∈
      gObs.edges ∧
    NodeId.version "v2" ∈ VersionResolution.resolverVersionNodes gObs "d1" ∧
    Stakeholders.compute_routing_targets gObs "d1" "v1" =
      .ok { amplify := [], inform := [], restrict := [] } := by decide

theorem latestInvariant_of_forall (g : Graph)
    (h : ∀ d ∈ decisionIds g, typeOf g (NodeId.decision d) = some "decision" →
      VersionResolution.resolverVersionNodes g d ≠ [] →
      (VersionResolution.latestCandidates g d).length = 1) :
    LatestInvariant g := by
  intro d hd hne
  apply h d ?_ hd hne
  unfold typeOf at hd
  rcases hg : g.getNode? (NodeId.decision d) with _ | a
  · rw [hg] at hd; cases hd
  · have hmem := lookupNode_mem g.nodes _ a hg
    unfold decisionIds
    rw [List.mem_filterMap]
    exact ⟨(NodeId.decision d, a), hmem, rfl⟩

/-- The graph obtained from `gChain` by adding version `v3` of `d1` with no
supersedes edge: two latest candidates remain. -/
def gForked : Graph :=
  { nodes := gChain.nodes ++ [(NodeId.version "v3",
      { type := some "decision_version", version_id := some "v3",
        decision_id := some "d1", content := some "c3",
        created_at := some "t3", confidence := some 1,
        reasoning := some "r3" })],
    edges := gChain.edges ++
      [⟨NodeId.decision "d1", NodeId.version "v3", "has_version"⟩] }

/-- The graph obtained from `gChain` by also letting `v1` supersede `v2`:
a two-cycle that leaves no latest candidate. -/
def gCycle : Graph :=
  { nodes := gChain.nodes,
    edges := gChain.edges ++
      [⟨NodeId.version "v1", NodeId.version "v2", "supersedes"⟩] }

/-- C4 counterexample: on `gChain` the latest-version invariant holds, yet a
single successful `add_decision_version` call leaves two latest candidates
for `d1`, and a single successful `link_supersedes` call (closing a cycle)
leaves zero; neither mutator preserves the invariant. -/
theorem graphstore_mutators_break_invariant :
    LatestInvariant gChain ∧
    DecisionGraph.add_decision_version gChain "v3" "d1" "c3" 1 "r3" "t3" =
      .ok gForked ∧
    ¬ LatestInvariant gForked ∧
    DecisionGraph.link_supersedes gChain "v1" "v2" = .ok gCycle ∧
    ¬ LatestInvariant gCycle := by
  refine ⟨latestInvariant_of_forall gChain (by decide), by decide, ?_,
    by decide, ?_⟩
  · intro hInv
    have h := hInv "d1" (by decide) (by decide)
    exact absurd h (by decide)
  · intro hInv
    have h := hInv "d1" (by decide) (by decide)
    exact absurd h (by decide)

/-- C4 amended: on graphs whose node types match their id namespaces and
whose edges connect present nodes (true of every graph the embedded
mutators build), the mutators that do not create version-to-version
structure - `add_decision`, both stakeholder upserts, both role link
operations, `record_reference` and `record_affects` - preserve the
latest-version invariant; `add_decision_version` and `link_supersedes` do
not (see the counterexample). -/
theorem graphstore_mutators_latest_invariant (g : Graph)
    (hT : NodesTyped g) (hC : EdgeClosed g) (hInv : LatestInvariant g) :
    (∀ did title ts, LatestInvariant (DecisionGraph.add_decision g did title ts)) ∧
    (∀ sid nm rl, LatestInvariant (DecisionGraph.add_stakeholder g sid nm rl)) ∧
    (∀ sid nm dep rl sp g2,
      Stakeholders.add_stakeholder g sid nm dep rl sp = .ok g2 →
      LatestInvariant g2) ∧
    (∀ sid did g2, Stakeholders.link_stakeholder_to_decision g sid did = .ok g2 →
      LatestInvariant g2) ∧
    (∀ sid vid2 g2, Stakeholders.link_stakeholder_to_version g sid vid2 = .ok g2 →
      LatestInvariant g2) ∧
    (∀ vid2 sid g2, DecisionGraph.record_reference g vid2 sid = .ok g2 →
      LatestInvariant g2) ∧
    (∀ did sid g2, DecisionGraph.record_affects g did sid = .ok g2 →
      LatestInvariant g2) := by
  have hsne : ∀ s, typeOf g (NodeId.stakeholder s) ≠ some "decision_version" := by
    intro s h
    have h2 : "decision_version" = "stakeholder" := typeOf_tag g hT _ _ h
    exact absurd h2 (by decide)
  have hsd : ∀ s d2, NodeId.stakeholder s ≠ NodeId.decision d2 :=
    fun s d2 hcc => by cases hcc
  refine ⟨?_, ?_, ?_, ?_, ?_, ?_, ?_⟩
  · intro did title ts
    unfold DecisionGraph.add_decision
    refine latestInvariant_updateTyped g (NodeId.decision did) _ hT hC ?_ ?_ hInv
    · exact (by decide : ("decision" : String) ≠ "decision_version")
    · intro a; rfl
  · intro sid nm rl
    unfold DecisionGraph.add_stakeholder
    refine latestInvariant_updateTyped g (NodeId.stakeholder sid) _ hT hC ?_ ?_ hInv
    · exact (by decide : ("stakeholder" : String) ≠ "decision_version")
    · intro a; rfl
  · intro sid nm dep rl sp g2 h
    unfold Stakeholders.add_stakeholder at h
    by_cases hrv : Stakeholders.validRole (some rl) = true
    · rw [if_pos hrv] at h
      injection h with h
      subst h
      refine latestInvariant_updateTyped g (NodeId.stakeholder sid) _ hT hC ?_ ?_ hInv
      · exact (by decide : ("stakeholder" : String) ≠ "decision_version")
      · intro a; rfl
    · rw [if_neg hrv] at h
      exact Except.noConfusion h
  · intro sid did g2 h
    simp only [Stakeholders.link_stakeholder_to_decision] at h
    by_cases h1 : g.hasNode (NodeId.stakeholder sid) = true
    · by_cases h2 : g.hasNode (NodeId.decision did) = true
      · by_cases h3 : Stakeholders.validRole
            (roleOf g (NodeId.stakeholder sid)) = true
        · rw [if_neg (not_not_intro h1), if_neg (not_not_intro h2),
            if_neg (not_not_intro h3)] at h
          by_cases h4 : roleOf g (NodeId.stakeholder sid) = some "Owner"
          · rw [if_pos h4] at h
            injection h with h
            subst h
            exact latestInvariant_addEdge g _ _ _ h1 h2
              (Or.inl (hsd sid)) (Or.inl (hsne sid)) hInv
          · rw [if_neg h4] at h
            by_cases h5 : roleOf g (NodeId.stakeholder sid) =
                some "Contributor"
            · rw [if_pos h5] at h
              injection h with h
              subst h
              exact latestInvariant_addEdge g _ _ _ h1 h2
                (Or.inl (hsd sid)) (Or.inl (hsne sid)) hInv
            · rw [if_neg h5] at h
              exact Except.noConfusion h
        · rw [if_neg (not_not_intro h1), if_neg (not_not_intro h2),
            if_pos h3] at h
          exact Except.noConfusion h
      · rw [if_neg (not_not_intro h1), if_pos h2] at h
        exact Except.noConfusion h
    · rw [if_pos h1] at h
      exact Except.noConfusion h
  · intro sid vid2 g2 h
    simp only [Stakeholders.link_stakeholder_to_version] at h
    by_cases h1 : g.hasNode (NodeId.stakeholder sid) = true
    · by_cases h2 : g.hasNode (NodeId.version vid2) = true
      · by_cases h3 : Stakeholders.validRole
            (roleOf g (NodeId.stakeholder sid)) = true
        · rw [if_neg (not_not_intro h1), if_neg (not_not_intro h2),
            if_neg (not_not_intro h3)] at h
          by_cases h4 : roleOf g (NodeId.stakeholder sid) = some "Informed"
          · rw [if_pos h4] at h
            injection h with h
            subst h
            exact latestInvariant_addEdge g _ _ _ h1 h2
              (Or.inl (hsd sid)) (Or.inl (hsne sid)) hInv
          · rw [if_neg h4] at h
            by_cases h5 : roleOf g (NodeId.stakeholder sid) = some "Affected"
            · rw [if_pos h5] at h
              injection h with h
              subst h
              exact latestInvariant_addEdge g _ _ _ h1 h2
                (Or.inl (hsd sid)) (Or.inl (hsne sid)) hInv
            · rw [if_neg h5] at h
              exact Except.noConfusion h
        · rw [if_neg (not_not_intro h1), if_neg (not_not_intro h2),
            if_pos h3] at h
          exact Except.noConfusion h
      · rw [if_neg (not_not_intro h1), if_pos h2] at h
        exact Except.noConfusion h
    · rw [if_pos h1] at h
      exact Except.noConfusion h
  · intro vid2 sid g2 h
    simp only [DecisionGraph.record_reference] at h
    by_cases h1 : g.hasNode (NodeId.version vid2) = true
    · by_cases h2 : g.hasNode (NodeId.stakeholder sid) = true
      · rw [if_neg (not_not_intro h1), if_neg (not_not_intro h2)] at h
        injection h with h
        subst h
        exact latestInvariant_addEdge g _ _ _ h1 h2
          (Or.inr (hsne sid)) (Or.inr (hsne sid)) hInv
      · rw [if_neg (not_not_intro h1), if_pos h2] at h
        exact Except.noConfusion h
    · rw [if_pos h1] at h
      exact Except.noConfusion h
  · intro did sid g2 h
    simp only [DecisionGraph.record_affects] at h
    by_cases h1 : g.hasNode (NodeId.decision did) = true
    · by_cases h2 : g.hasNode (NodeId.stakeholder sid) = true
      · rw [if_neg (not_not_intro h1), if_neg (not_not_intro h2)] at h
        injection h with h
        subst h
        exact latestInvariant_addEdge g _ _ _ h1 h2
          (Or.inr (hsne sid)) (Or.inr (hsne sid)) hInv
      · rw [if_neg (not_not_intro h1), if_pos h2] at h
        exact Except.noConfusion h
    · rw [if_pos h1] at h
      exact Except.noConfusion h

theorem graphstore_mutators_latest_invariant_witness :
    NodesTyped gChain ∧ EdgeClosed gChain ∧
    (∀ did title ts,
      LatestInvariant (DecisionGraph.add_decision gChain did title ts)) :=
  ⟨by unfold NodesTyped; decide, by unfold EdgeClosed; decide,
    (graphstore_mutators_latest_invariant gChain
      (by unfold NodesTyped; decide) (by unfold EdgeClosed; decide)
      (latestInvariant_of_forall gChain (by decide))).1⟩

/-! Edge-level infrastructure for the attendance-reconciliation analysis:
effects of `add_edge` / `remove_edge` on single ordered pairs, without
presence side conditions (`add_edge` creates missing endpoints, so its
effect on the edge list is unconditional). -/

theorem ensureNode_edges (g : Graph) (n : NodeId) :
    (ensureNode g n).edges = g.edges := by
  unfold ensureNode
  split <;> rfl

theorem addEdgeRaw_edges_any (g : Graph) (u v : NodeId) (t : String) :
    (g.addEdgeRaw u v t).edges = upsertEdge g.edges u v t := by
  show upsertEdge (ensureNode (ensureNode g u) v).edges u v t = _
  rw [ensureNode_edges, ensureNode_edges]

theorem edgeType?_addEdge_self_any (g : Graph) (u v : NodeId) (t : String) :
    (g.addEdgeRaw u v t).edgeType? u v = some t := by
  simp [Graph.edgeType?, addEdgeRaw_edges_any, lookupEdge_upsertEdge_self]

theorem edgeType?_addEdge_ne_any (g : Graph) (u v u' v' : NodeId) (t : String)
    (h : ¬(u' = u ∧ v' = v)) :
    (g.addEdgeRaw u v t).edgeType? u' v' = g.edgeType? u' v' := by
  simp [Graph.edgeType?, addEdgeRaw_edges_any,
    lookupEdge_upsertEdge_ne g.edges u v u' v' t h]

theorem lookupNode_append_some (l1 l2 : List (NodeId × NodeAttrs)) (n : NodeId)
    (a : NodeAttrs) (h : lookupNode l1 n = some a) :
    lookupNode (l1 ++ l2) n = some a := by
  induction l1 with
  | nil => cases h
  | cons p rest ih =>
      rw [lookupNode] at h
      by_cases hp : p.1 = n
      · rw [if_pos hp] at h
        rw [List.cons_append, lookupNode, if_pos hp]
        exact h
      · rw [if_neg hp] at h
        rw [List.cons_append, lookupNode, if_neg hp]
        exact ih h

theorem hasNode_ensureNode_of (g : Graph) (n m : NodeId)
    (h : g.hasNode m = true) : (ensureNode g n).hasNode m = true := by
  unfold ensureNode
  split
  · exact h
  · unfold Graph.hasNode Graph.getNode? at h ⊢
    rcases ha : lookupNode g.nodes m with _ | a
    · rw [ha] at h; cases h
    · show (lookupNode (g.nodes ++ [(n, {})]) m).isSome = true
      rw [lookupNode_append_some g.nodes [(n, {})] m a ha]
      rfl

theorem hasNode_addEdgeRaw_of (g : Graph) (u v : NodeId) (t : String)
    (n : NodeId) (h : g.hasNode n = true) :
    (g.addEdgeRaw u v t).hasNode n = true := by
  show (ensureNode (ensureNode g u) v).hasNode n = true
  exact hasNode_ensureNode_of _ v n (hasNode_ensureNode_of g u n h)

theorem hasNode_updateNode_of (g : Graph) (n m : NodeId)
    (f : NodeAttrs → NodeAttrs) (h : g.hasNode m = true) :
    (g.updateNode n f).hasNode m = true := by
  rw [hasNode_updateNode]
  split
  · rfl
  · exact h

theorem removeEdge_nodes (g : Graph) (u v : NodeId) :
    (g.removeEdge u v).nodes = g.nodes := rfl

theorem hasNode_removeEdge (g : Graph) (u v n : NodeId) :
    (g.removeEdge u v).hasNode n = g.hasNode n := rfl

theorem lookupEdge_filter_none (l : List Edge) (p : Edge → Bool) (u v : NodeId)
    (h : lookupEdge l u v = none) : lookupEdge (l.filter p) u v = none := by
  induction l with
  | nil => rfl
  | cons e rest ih =>
      rw [lookupEdge] at h
      by_cases he : e.src = u ∧ e.dst = v
      · rw [if_pos he] at h; cases h
      · rw [if_neg he] at h
        rw [List.filter_cons]
        split
        · rw [lookupEdge, if_neg he]
          exact ih h
        · exact ih h

theorem edgeType?_removeEdge_none (g : Graph) (u v u' v' : NodeId)
    (h : g.edgeType? u' v' = none) :
    (g.removeEdge u v).edgeType? u' v' = none := by
  unfold Graph.edgeType? at h ⊢
  rcases hl : lookupEdge g.edges u' v' with _ | e
  · show (lookupEdge (g.edges.filter _) u' v').map _ = none
    rw [lookupEdge_filter_none g.edges _ u' v' hl]
    rfl
  · rw [hl] at h; cases h

theorem lookupEdge_filter_keep (l : List Edge) (u v u' v' : NodeId)
    (h : ¬(u' = u ∧ v' = v)) :
    lookupEdge (l.filter (fun e => !(decide (e.src = u ∧ e.dst = v)))) u' v' =
      lookupEdge l u' v' := by
  induction l with
  | nil => rfl
  | cons e rest ih =>
      by_cases hm : e.src = u' ∧ e.dst = v'
      · have hne : ¬(e.src = u ∧ e.dst = v) := by
          rintro ⟨h1, h2⟩
          exact h ⟨hm.1 ▸ h1, hm.2 ▸ h2⟩
        rw [List.filter_cons, if_pos (by simp [hne]), lookupEdge, if_pos hm,
          lookupEdge, if_pos hm]
      · rw [List.filter_cons]
        split
        · rw [lookupEdge, if_neg hm, lookupEdge, if_neg hm]
          exact ih
        · rw [lookupEdge, if_neg hm]
          exact ih

theorem edgeType?_removeEdge_ne (g : Graph) (u v u' v' : NodeId)
    (h : ¬(u' = u ∧ v' = v)) :
    (g.removeEdge u v).edgeType? u' v' = g.edgeType? u' v' := by
  unfold Graph.edgeType? Graph.removeEdge
  rw [lookupEdge_filter_keep g.edges u v u' v' h]

theorem lookupEdge_mem (l : List Edge) (u v : NodeId) (e : Edge)
    (h : lookupEdge l u v = some e) : e ∈ l ∧ e.src = u ∧ e.dst = v := by
  induction l with
  | nil => cases h
  | cons e0 rest ih =>
      rw [lookupEdge] at h
      by_cases he : e0.src = u ∧ e0.dst = v
      · rw [if_pos he] at h
        injection h with h2
        subst h2
        exact ⟨List.mem_cons_self _ rest, he⟩
      · rw [if_neg he] at h
        rcases ih h with ⟨h1, h2⟩
        exact ⟨List.mem_cons_of_mem e0 h1, h2⟩

theorem edgeType?_none_of_absent (g : Graph) (hC : EdgeClosed g) (u : NodeId)
    (hu : g.hasNode u = false) (v : NodeId) : g.edgeType? u v = none := by
  unfold Graph.edgeType?
  rcases hl : lookupEdge g.edges u v with _ | e
  · rfl
  · rcases lookupEdge_mem g.edges u v e hl with ⟨hmem, hsrc, _⟩
    have := (hC e hmem).1
    rw [hsrc, hu] at this
    cases this

theorem typeOf_updateNode_preserve (g : Graph) (n : NodeId)
    (f : NodeAttrs → NodeAttrs) (hf : ∀ a, (f a).type = a.type) (m : NodeId) :
    typeOf (g.updateNode n f) m = typeOf g m := by
  by_cases h : m = n
  · subst h
    unfold typeOf
    rw [getNode?_updateNode_self]
    rcases hg : g.getNode? m with _ | a
    · show ((f ((none : Option NodeAttrs).getD {})).type : Option String) = _
      rw [hf]
      rfl
    · show ((f ((some a).getD {})).type : Option String) = _
      rw [hf]
      rfl
  · unfold typeOf
    rw [getNode?_updateNode_ne g n m f h]

theorem resolver_eq_of_typePreserving (g g' : Graph) (hE : g'.edges = g.edges)
    (hty : ∀ n, typeOf g' n = typeOf g n) (d : String) :
    VersionResolution.get_latest_decision_version g' d =
      VersionResolution.get_latest_decision_version g d := by
  have hrvn : VersionResolution.resolverVersionNodes g' d =
      VersionResolution.resolverVersionNodes g d := by
    unfold VersionResolution.resolverVersionNodes
    rw [hE]
    refine congrArg _ (List.filter_congr ?_)
    intro e _
    simp [hty]
  have hsup : ∀ vs, VersionResolution.supersededOf g' vs =
      VersionResolution.supersededOf g vs := by
    intro vs
    unfold VersionResolution.supersededOf
    rw [hE]
  unfold VersionResolution.get_latest_decision_version
    VersionResolution.latestCandidates
  rw [hrvn, hsup, hty]

theorem edgeType?_of_edges_eq {g g' : Graph} (h : g'.edges = g.edges)
    (u v : NodeId) : g'.edgeType? u v = g.edgeType? u v := by
  unfold Graph.edgeType?
  rw [h]

theorem hasNode_updateNode_self (g : Graph) (n : NodeId)
    (f : NodeAttrs → NodeAttrs) : (g.updateNode n f).hasNode n = true := by
  rw [hasNode_updateNode]
  simp

/-- A successful stakeholder-to-decision link only adds one edge from the
stakeholder node to the decision node. -/
theorem link_to_decision_ok_shape (g : Graph) (sid did : String) (g2 : Graph)
    (h : Stakeholders.link_stakeholder_to_decision g sid did = .ok g2) :
    ∃ t, g2 = g.addEdgeRaw (NodeId.stakeholder sid) (NodeId.decision did) t := by
  simp only [Stakeholders.link_stakeholder_to_decision] at h
  by_cases h1 : g.hasNode (NodeId.stakeholder sid) = true
  · by_cases h2 : g.hasNode (NodeId.decision did) = true
    · by_cases h3 : Stakeholders.validRole
          (roleOf g (NodeId.stakeholder sid)) = true
      · rw [if_neg (not_not_intro h1), if_neg (not_not_intro h2),
          if_neg (not_not_intro h3)] at h
        by_cases h4 : roleOf g (NodeId.stakeholder sid) = some "Owner"
        · rw [if_pos h4] at h
          injection h with h
          exact ⟨"owns", h.symm⟩
        · rw [if_neg h4] at h
          by_cases h5 : roleOf g (NodeId.stakeholder sid) = some "Contributor"
          · rw [if_pos h5] at h
            injection h with h
            exact ⟨"contributes", h.symm⟩
          · rw [if_neg h5] at h
            exact Except.noConfusion h
      · rw [if_neg (not_not_intro h1), if_neg (not_not_intro h2),
          if_pos h3] at h
        exact Except.noConfusion h
    · rw [if_neg (not_not_intro h1), if_pos h2] at h
      exact Except.noConfusion h
  · rw [if_pos h1] at h
    exact Except.noConfusion h

/-- A successful stakeholder-to-version link only adds one edge from the
stakeholder node to the version node. -/
theorem link_to_version_ok_shape (g : Graph) (sid vid : String) (g2 : Graph)
    (h : Stakeholders.link_stakeholder_to_version g sid vid = .ok g2) :
    ∃ t, g2 = g.addEdgeRaw (NodeId.stakeholder sid) (NodeId.version vid) t := by
  simp only [Stakeholders.link_stakeholder_to_version] at h
  by_cases h1 : g.hasNode (NodeId.stakeholder sid) = true
  · by_cases h2 : g.hasNode (NodeId.version vid) = true
    · by_cases h3 : Stakeholders.validRole
          (roleOf g (NodeId.stakeholder sid)) = true
      · rw [if_neg (not_not_intro h1), if_neg (not_not_intro h2),
          if_neg (not_not_intro h3)] at h
        by_cases h4 : roleOf g (NodeId.stakeholder sid) = some "Informed"
        · rw [if_pos h4] at h
          injection h with h
          exact ⟨"informed_of", h.symm⟩
        · rw [if_neg h4] at h
          by_cases h5 : roleOf g (NodeId.stakeholder sid) = some "Affected"
          · rw [if_pos h5] at h
            injection h with h
            exact ⟨"affected_by", h.symm⟩
          · rw [if_neg h5] at h
            exact Except.noConfusion h
      · rw [if_neg (not_not_intro h1), if_neg (not_not_intro h2),
          if_pos h3] at h
        exact Except.noConfusion h
    · rw [if_neg (not_not_intro h1), if_pos h2] at h
      exact Except.noConfusion h
  · rw [if_pos h1] at h
    exact Except.noConfusion h

/-- `_link_person` never touches a version-to-stakeholder edge: both links
it may create have the stakeholder node as source. -/
theorem link_person_edge_eq (g : Graph) (sid did vid : String) (x y : String) :
    (MemoryAgent.link_person g sid did vid).edgeType? (NodeId.version x)
        (NodeId.stakeholder y) =
      g.edgeType? (NodeId.version x) (NodeId.stakeholder y) := by
  unfold MemoryAgent.link_person
  rcases hld : Stakeholders.link_stakeholder_to_decision g sid did with e | gd
  · dsimp only
    rcases hlv : Stakeholders.link_stakeholder_to_version g sid vid with e2 | gv
    · rfl
    · dsimp only
      obtain ⟨t, rfl⟩ := link_to_version_ok_shape g sid vid gv hlv
      exact edgeType?_addEdge_ne_any g _ _ _ _ t
        (by rintro ⟨hc, -⟩; cases hc)
  · dsimp only
    obtain ⟨t, rfl⟩ := link_to_decision_ok_shape g sid did gd hld
    rcases hlv : Stakeholders.link_stakeholder_to_version
        (g.addEdgeRaw (NodeId.stakeholder sid) (NodeId.decision did) t) sid
        vid with e2 | gv
    · dsimp only
      exact edgeType?_addEdge_ne_any g _ _ _ _ t
        (by rintro ⟨hc, -⟩; cases hc)
    · dsimp only
      obtain ⟨t2, rfl⟩ := link_to_version_ok_shape _ sid vid gv hlv
      rw [edgeType?_addEdge_ne_any _ _ _ _ _ t2
        (by rintro ⟨hc, -⟩; cases hc)]
      exact edgeType?_addEdge_ne_any g _ _ _ _ t
        (by rintro ⟨hc, -⟩; cases hc)

theorem link_person_hasNode_of (g : Graph) (sid did vid : String) (n : NodeId)
    (h : g.hasNode n = true) :
    (MemoryAgent.link_person g sid did vid).hasNode n = true := by
  unfold MemoryAgent.link_person
  rcases hld : Stakeholders.link_stakeholder_to_decision g sid did with e | gd
  · dsimp only
    rcases hlv : Stakeholders.link_stakeholder_to_version g sid vid with e2 | gv
    · exact h
    · dsimp only
      obtain ⟨t, rfl⟩ := link_to_version_ok_shape g sid vid gv hlv
      exact hasNode_addEdgeRaw_of g _ _ t n h
  · dsimp only
    obtain ⟨t, rfl⟩ := link_to_decision_ok_shape g sid did gd hld
    have h2 := hasNode_addEdgeRaw_of g (NodeId.stakeholder sid)
      (NodeId.decision did) t n h
    rcases hlv : Stakeholders.link_stakeholder_to_version
        (g.addEdgeRaw (NodeId.stakeholder sid) (NodeId.decision did) t) sid
        vid with e2 | gv
    · exact h2
    · dsimp only
      obtain ⟨t2, rfl⟩ := link_to_version_ok_shape _ sid vid gv hlv
      exact hasNode_addEdgeRaw_of _ _ _ t2 n h2

theorem except_bind_ok {α β γ : Type} (a : α) (f : α → Except γ β) :
    (Except.ok a >>= f : Except γ β) = f a := rfl

theorem except_pure_bind {α β γ : Type} (a : α) (f : α → Except γ β) :
    ((pure a : Except γ α) >>= f) = f a := rfl

/-- The per-participant fold of `process_meeting` succeeds on valid roles
and leaves every version-to-stakeholder edge unchanged, while ensuring each
participant's stakeholder node is present. -/
theorem participant_fold_effects (pid did vid : String)
    (parts : List MemoryAgent.Participant)
    (hroles : ∀ p ∈ parts, Stakeholders.validRole (some p.role) = true) :
    ∀ g : Graph, ∃ g' : Graph,
      (parts.foldlM (fun g p => do
        let ga ← MemoryAgent.upsert_stakeholder g pid p
        pure (MemoryAgent.link_person ga p.stakeholder_id did vid)) g) =
        .ok g' ∧
      (∀ x y, g'.edgeType? (NodeId.version x) (NodeId.stakeholder y) =
        g.edgeType? (NodeId.version x) (NodeId.stakeholder y)) ∧
      (∀ n, g.hasNode n = true → g'.hasNode n = true) ∧
      (∀ p ∈ parts, g'.hasNode (NodeId.stakeholder p.stakeholder_id) = true) := by
  induction parts with
  | nil =>
      intro g
      exact ⟨g, rfl, fun x y => rfl, fun n h => h, by simp⟩
  | cons p rest ih =>
      intro g
      have hrole : Stakeholders.validRole (some p.role) = true :=
        hroles p (List.mem_cons_self p rest)
      obtain ⟨gu, hgu, f, hguEq⟩ : ∃ gu,
          MemoryAgent.upsert_stakeholder g pid p = .ok gu ∧ ∃ f,
            gu = g.updateNode (NodeId.stakeholder p.stakeholder_id) f := by
        unfold MemoryAgent.upsert_stakeholder Stakeholders.add_stakeholder
        rw [if_pos hrole]
        exact ⟨_, rfl, _, rfl⟩
      rcases ih (fun q hq => hroles q (List.mem_cons_of_mem p hq))
          (MemoryAgent.link_person gu p.stakeholder_id did vid) with
        ⟨g', hfold, hEdge, hMono, hParts⟩
      refine ⟨g', ?_, ?_, ?_, ?_⟩
      · simp only [List.foldlM, hgu, except_bind_ok, except_pure_bind]
        exact hfold
      · intro x y
        rw [hEdge x y, link_person_edge_eq gu p.stakeholder_id did vid x y,
          hguEq, edgeType?_of_edges_eq (updateNode_edges g _ f)]
      · intro n h
        refine hMono n (link_person_hasNode_of gu _ did vid n ?_)
        rw [hguEq]
        exact hasNode_updateNode_of g _ n f h
      · intro q hq
        rcases List.mem_cons.mp hq with rfl | hq2
        · refine hMono _ (link_person_hasNode_of gu _ did vid _ ?_)
          rw [hguEq]
          exact hasNode_updateNode_self g _ f
        · exact hParts q hq2

/-- A fresh-version `_upsert_decision_version` call whose decision resolves
to a previous latest version leaves every version-to-stakeholder edge
unchanged and only grows the node set. -/
theorem upsert_version_effects (g : Graph) (pid d vid content : String)
    (conf : Rat) (reasoning ts : String) (v1 : String)
    (hvnew : g.hasNode (NodeId.version vid) = false)
    (hdn : g.hasNode (NodeId.decision d) = true)
    (hr : VersionResolution.get_latest_decision_version g d =
      .ok (NodeId.version v1))
    (hne : NodeId.version v1 ≠ NodeId.version vid) :
    ∃ g2, MemoryAgent.upsert_decision_version g pid d vid content conf
        reasoning ts = .ok g2 ∧
      (∀ x y, g2.edgeType? (NodeId.version x) (NodeId.stakeholder y) =
        g.edgeType? (NodeId.version x) (NodeId.stakeholder y)) ∧
      (∀ n, g.hasNode n = true → g2.hasNode n = true) ∧
      g2.hasNode (NodeId.version vid) = true := by
  refine ⟨_, upsert_decision_version_fresh_eq g pid d vid content conf
    reasoning ts (NodeId.version v1) hvnew hdn hr hne, ?_, ?_, ?_⟩
  · intro x y
    unfold MemoryAgent.stampProject
    rw [edgeType?_of_edges_eq (updateNode_edges _ _ _),
      edgeType?_addEdge_ne_any _ _ _ _ _ "supersedes"
        (by rintro ⟨-, hc⟩; cases hc),
      edgeType?_addEdge_ne_any _ _ _ _ _ "has_version"
        (by rintro ⟨hc, -⟩; cases hc)]
    exact edgeType?_of_edges_eq (updateNode_edges _ _ _) _ _
  · intro n h
    unfold MemoryAgent.stampProject
    exact hasNode_updateNode_of _ _ _ _ (hasNode_addEdgeRaw_of _ _ _ _ _
      (hasNode_addEdgeRaw_of _ _ _ _ _ (hasNode_updateNode_of _ _ _ _ h)))
  · unfold MemoryAgent.stampProject
    exact hasNode_updateNode_of _ _ _ _ (hasNode_addEdgeRaw_of _ _ _ _ _
      (hasNode_addEdgeRaw_of _ _ _ _ _ (hasNode_updateNode_self _ _ _)))

/-- `_process_meeting` on one structured decision with valid participant
roles: it succeeds, leaves every version-to-stakeholder edge unchanged,
keeps all present nodes, and ensures the committed version node and every
participant's stakeholder node are present. -/
theorem processDecision_effects (g : Graph) (pid ts : String)
    (parts : List MemoryAgent.Participant) (md : MemoryAgent.MeetingDecision)
    (v1 : String)
    (hroles : ∀ p ∈ parts, Stakeholders.validRole (some p.role) = true)
    (hres : VersionResolution.get_latest_decision_version g md.decision_id =
      .ok (NodeId.version v1))
    (hfresh : g.hasNode (NodeId.version md.version_id) = false) :
    ∃ g3, MemoryAgent.processDecision g pid ts parts md = .ok g3 ∧
      (∀ x y, g3.edgeType? (NodeId.version x) (NodeId.stakeholder y) =
        g.edgeType? (NodeId.version x) (NodeId.stakeholder y)) ∧
      (∀ n, g.hasNode n = true → g3.hasNode n = true) ∧
      g3.hasNode (NodeId.version md.version_id) = true ∧
      (∀ p ∈ parts, g3.hasNode (NodeId.stakeholder p.stakeholder_id) = true) := by
  have hDty : typeOf g (NodeId.decision md.decision_id) = some "decision" :=
    (resolver_ok_inversion g _ _ hres).1
  have hDnode : g.hasNode (NodeId.decision md.decision_id) = true :=
    hasNode_of_typeOf g _ _ hDty
  have hg1 : MemoryAgent.upsert_decision g pid md.decision_id md.title ts =
      g.updateNode (NodeId.decision md.decision_id)
        (fun a => { a with project_id := some pid }) := by
    unfold MemoryAgent.upsert_decision MemoryAgent.stampProject
    rw [if_pos hDnode]
  have hg1E : (g.updateNode (NodeId.decision md.decision_id)
      (fun a => { a with project_id := some pid })).edges = g.edges :=
    updateNode_edges g _ _
  have hg1ty : ∀ n, typeOf (g.updateNode (NodeId.decision md.decision_id)
      (fun a => { a with project_id := some pid })) n = typeOf g n :=
    typeOf_updateNode_preserve g _ _ (fun a => rfl)
  have hres1 : VersionResolution.get_latest_decision_version
      (g.updateNode (NodeId.decision md.decision_id)
        (fun a => { a with project_id := some pid })) md.decision_id =
      .ok (NodeId.version v1) := by
    rw [resolver_eq_of_typePreserving g _ hg1E hg1ty md.decision_id]
    exact hres
  have hfresh1 : (g.updateNode (NodeId.decision md.decision_id)
      (fun a => { a with project_id := some pid })).hasNode
        (NodeId.version md.version_id) = false := by
    rw [hasNode_updateNode, if_neg (by intro hc; cases hc)]
    exact hfresh
  have hDnode1 : (g.updateNode (NodeId.decision md.decision_id)
      (fun a => { a with project_id := some pid })).hasNode
        (NodeId.decision md.decision_id) = true :=
    hasNode_updateNode_self g _ _
  have hv1mem : NodeId.version v1 ∈
      VersionResolution.latestCandidates g md.decision_id := by
    rw [(resolver_ok_inversion g _ _ hres).2]
    exact List.mem_singleton.mpr rfl
  have hv1node : g.hasNode (NodeId.version v1) = true :=
    hasNode_of_typeOf g _ _ (typed_of_mem_rvn g md.decision_id _
      ((mem_latestCandidates g md.decision_id _).mp hv1mem).1)
  have hne : NodeId.version v1 ≠ NodeId.version md.version_id := by
    intro hc
    rw [hc, hfresh] at hv1node
    cases hv1node
  obtain ⟨g2, hudv, hE2, hM2, hV2⟩ := upsert_version_effects
    (g.updateNode (NodeId.decision md.decision_id)
      (fun a => { a with project_id := some pid }))
    pid md.decision_id md.version_id md.content md.confidence md.reasoning ts
    v1 hfresh1 hDnode1 hres1 hne
  obtain ⟨g3, hfold, hE3, hM3, hP3⟩ := participant_fold_effects pid
    md.decision_id md.version_id parts hroles g2
  refine ⟨g3, ?_, ?_, ?_, ?_, ?_⟩
  · simp only [MemoryAgent.processDecision]
    rw [hg1, hudv, except_bind_ok]
    exact hfold
  · intro x y
    rw [hE3 x y, hE2 x y,
      edgeType?_of_edges_eq hg1E (NodeId.version x) (NodeId.stakeholder y)]
  · intro n h
    exact hM3 n (hM2 n (hasNode_updateNode_of g _ n _ h))
  · exact hM3 _ hV2
  · exact hP3

/-! Effects of the `_mark_attendance_drift` per-stakeholder body. -/

theorem removalFold_nodes (sn : NodeId) (vns : List NodeId) :
    ∀ g : Graph, (vns.foldl (fun g vn =>
      if g.edgeType? vn sn = some "referenced_by" then g.removeEdge vn sn
      else g) g).nodes = g.nodes := by
  induction vns with
  | nil => intro g; rfl
  | cons vn rest ih =>
      intro g
      rw [List.foldl_cons, ih]
      split
      · rfl
      · rfl

theorem removalFold_edge_ne (sn : NodeId) (u' v' : NodeId) (hnev : v' ≠ sn)
    (vns : List NodeId) : ∀ g : Graph,
    (vns.foldl (fun g vn =>
      if g.edgeType? vn sn = some "referenced_by" then g.removeEdge vn sn
      else g) g).edgeType? u' v' = g.edgeType? u' v' := by
  induction vns with
  | nil => intro g; rfl
  | cons vn rest ih =>
      intro g
      rw [List.foldl_cons, ih]
      split
      · exact edgeType?_removeEdge_ne g vn sn u' v' (fun hc => hnev hc.2)
      · rfl

theorem removalFold_none (sn u' v' : NodeId) (vns : List NodeId) :
    ∀ g : Graph, g.edgeType? u' v' = none →
    (vns.foldl (fun g vn =>
      if g.edgeType? vn sn = some "referenced_by" then g.removeEdge vn sn
      else g) g).edgeType? u' v' = none := by
  induction vns with
  | nil => intro g h; exact h
  | cons vn rest ih =>
      intro g h
      rw [List.foldl_cons]
      refine ih _ ?_
      split
      · exact edgeType?_removeEdge_none g vn sn u' v' h
      · exact h

theorem record_ref_apply (g : Graph) (pv sid : String)
    (hv : g.hasNode (NodeId.version pv) = true)
    (hs : g.hasNode (NodeId.stakeholder sid) = true) :
    DecisionGraph.record_reference g pv sid =
      .ok (g.addEdgeRaw (NodeId.version pv) (NodeId.stakeholder sid)
        "referenced_by") := by
  simp only [DecisionGraph.record_reference]
  rw [if_neg (not_not_intro hv), if_neg (not_not_intro hs)]

theorem record_ref_ok_shape (g : Graph) (pv sid : String) (g2 : Graph)
    (h : DecisionGraph.record_reference g pv sid = .ok g2) :
    g2 = g.addEdgeRaw (NodeId.version pv) (NodeId.stakeholder sid)
      "referenced_by" := by
  simp only [DecisionGraph.record_reference] at h
  by_cases h1 : g.hasNode (NodeId.version pv) = true
  · by_cases h2 : g.hasNode (NodeId.stakeholder sid) = true
    · rw [if_neg (not_not_intro h1), if_neg (not_not_intro h2)] at h
      injection h with h
      exact h.symm
    · rw [if_neg (not_not_intro h1), if_pos h2] at h
      exact Except.noConfusion h
  · rw [if_pos h1] at h
    exact Except.noConfusion h

theorem driftReset_attendee (atts : List String) (pv : String)
    (vns : List NodeId) (g : Graph) (s : MemoryAgent.Participant)
    (ha : s.stakeholder_id ∈ atts) :
    ProjectEndpoints.driftResetStakeholder atts pv vns g s = g := by
  simp only [ProjectEndpoints.driftResetStakeholder]
  rw [if_pos ha]

theorem driftReset_sets_ref (atts : List String) (pv : String)
    (vns : List NodeId) (g : Graph) (s : MemoryAgent.Participant)
    (hna : s.stakeholder_id ∉ atts)
    (hv : g.hasNode (NodeId.version pv) = true)
    (hs : g.hasNode (NodeId.stakeholder s.stakeholder_id) = true) :
    (ProjectEndpoints.driftResetStakeholder atts pv vns g s).edgeType?
      (NodeId.version pv) (NodeId.stakeholder s.stakeholder_id) =
      some "referenced_by" := by
  simp only [ProjectEndpoints.driftResetStakeholder]
  rw [if_neg hna, if_pos hs]
  have hnodes := removalFold_nodes (NodeId.stakeholder s.stakeholder_id) vns g
  have hvf := (hasNode_of_nodes_eq hnodes (NodeId.version pv)).trans hv
  have hsf := (hasNode_of_nodes_eq hnodes
    (NodeId.stakeholder s.stakeholder_id)).trans hs
  rw [record_ref_apply _ pv s.stakeholder_id hvf hsf]
  exact edgeType?_addEdge_self_any _ _ _ _

theorem driftReset_other (atts : List String) (pv : String)
    (vns : List NodeId) (g : Graph) (s : MemoryAgent.Participant)
    (x y : String) (hy : y ≠ s.stakeholder_id) :
    (ProjectEndpoints.driftResetStakeholder atts pv vns g s).edgeType?
      (NodeId.version x) (NodeId.stakeholder y) =
      g.edgeType? (NodeId.version x) (NodeId.stakeholder y) := by
  have hyn : NodeId.stakeholder y ≠ NodeId.stakeholder s.stakeholder_id := by
    intro hc
    injection hc with hc
    exact hy hc
  simp only [ProjectEndpoints.driftResetStakeholder]
  by_cases ha : s.stakeholder_id ∈ atts
  · rw [if_pos ha]
  · rw [if_neg ha]
    by_cases hs : g.hasNode (NodeId.stakeholder s.stakeholder_id) = true
    · rw [if_pos hs]
      have hfold := removalFold_edge_ne (NodeId.stakeholder s.stakeholder_id)
        (NodeId.version x) (NodeId.stakeholder y) hyn vns g
      rcases hrec : DecisionGraph.record_reference
          (vns.foldl (fun g vn =>
            if g.edgeType? vn (NodeId.stakeholder s.stakeholder_id) =
                some "referenced_by" then
              g.removeEdge vn (NodeId.stakeholder s.stakeholder_id)
            else g) g) pv s.stakeholder_id with e | g2
      · exact hfold
      · rw [record_ref_ok_shape _ pv s.stakeholder_id g2 hrec]
        rw [edgeType?_addEdge_ne_any _ _ _ _ _ "referenced_by"
          (fun hc => hyn hc.2)]
        exact hfold
    · rw [if_neg hs]
      rcases hrec : DecisionGraph.record_reference g pv s.stakeholder_id
          with e | g2
      · rfl
      · rw [record_ref_ok_shape _ pv s.stakeholder_id g2 hrec]
        exact edgeType?_addEdge_ne_any _ _ _ _ _ "referenced_by"
          (fun hc => hyn hc.2)

theorem driftReset_none (atts : List String) (pv : String)
    (vns : List NodeId) (g : Graph) (s : MemoryAgent.Participant)
    (u' v' : NodeId) (hsrc : u' ≠ NodeId.version pv)
    (h : g.edgeType? u' v' = none) :
    (ProjectEndpoints.driftResetStakeholder atts pv vns g s).edgeType?
      u' v' = none := by
  simp only [ProjectEndpoints.driftResetStakeholder]
  by_cases ha : s.stakeholder_id ∈ atts
  · rw [if_pos ha]
    exact h
  · rw [if_neg ha]
    by_cases hs : g.hasNode (NodeId.stakeholder s.stakeholder_id) = true
    · rw [if_pos hs]
      have hfold := removalFold_none (NodeId.stakeholder s.stakeholder_id)
        u' v' vns g h
      rcases hrec : DecisionGraph.record_reference
          (vns.foldl (fun g vn =>
            if g.edgeType? vn (NodeId.stakeholder s.stakeholder_id) =
                some "referenced_by" then
              g.removeEdge vn (NodeId.stakeholder s.stakeholder_id)
            else g) g) pv s.stakeholder_id with e | g2
      · exact hfold
      · rw [record_ref_ok_shape _ pv s.stakeholder_id g2 hrec]
        rw [edgeType?_addEdge_ne_any _ _ _ _ _ "referenced_by"
          (fun hc => hsrc hc.1)]
        exact hfold
    · rw [if_neg hs]
      rcases hrec : DecisionGraph.record_reference g pv s.stakeholder_id
          with e | g2
      · exact h
      · rw [record_ref_ok_shape _ pv s.stakeholder_id g2 hrec]
        rw [edgeType?_addEdge_ne_any _ _ _ _ _ "referenced_by"
          (fun hc => hsrc hc.1)]
        exact h

theorem driftReset_hasNode (atts : List String) (pv : String)
    (vns : List NodeId) (g : Graph) (s : MemoryAgent.Participant)
    (n : NodeId) (h : g.hasNode n = true) :
    (ProjectEndpoints.driftResetStakeholder atts pv vns g s).hasNode n =
      true := by
  simp only [ProjectEndpoints.driftResetStakeholder]
  by_cases ha : s.stakeholder_id ∈ atts
  · rw [if_pos ha]
    exact h
  · rw [if_neg ha]
    by_cases hs : g.hasNode (NodeId.stakeholder s.stakeholder_id) = true
    · rw [if_pos hs]
      have hnodes := removalFold_nodes (NodeId.stakeholder s.stakeholder_id)
        vns g
      have hf := (hasNode_of_nodes_eq hnodes n).trans h
      rcases hrec : DecisionGraph.record_reference
          (vns.foldl (fun g vn =>
            if g.edgeType? vn (NodeId.stakeholder s.stakeholder_id) =
                some "referenced_by" then
              g.removeEdge vn (NodeId.stakeholder s.stakeholder_id)
            else g) g) pv s.stakeholder_id with e | g2
      · exact hf
      · rw [record_ref_ok_shape _ pv s.stakeholder_id g2 hrec]
        exact hasNode_addEdgeRaw_of _ _ _ _ n hf
    · rw [if_neg hs]
      rcases hrec : DecisionGraph.record_reference g pv s.stakeholder_id
          with e | g2
      · exact h
      · rw [record_ref_ok_shape _ pv s.stakeholder_id g2 hrec]
        exact hasNode_addEdgeRaw_of _ _ _ _ n h

theorem driftFold_hasNode (atts : List String) (pv : String)
    (vns : List NodeId) (n : NodeId) (ps : List MemoryAgent.Participant) :
    ∀ g : Graph, g.hasNode n = true →
    (ps.foldl (ProjectEndpoints.driftResetStakeholder atts pv vns) g).hasNode
      n = true := by
  induction ps with
  | nil => intro g h; exact h
  | cons s rest ih =>
      intro g h
      rw [List.foldl_cons]
      exact ih _ (driftReset_hasNode atts pv vns g s n h)

theorem driftFold_none (atts : List String) (pv : String) (vns : List NodeId)
    (u' v' : NodeId) (hsrc : u' ≠ NodeId.version pv)
    (ps : List MemoryAgent.Participant) : ∀ g : Graph,
    g.edgeType? u' v' = none →
    (ps.foldl (ProjectEndpoints.driftResetStakeholder atts pv vns) g).edgeType?
      u' v' = none := by
  induction ps with
  | nil => intro g h; exact h
  | cons s rest ih =>
      intro g h
      rw [List.foldl_cons]
      exact ih _ (driftReset_none atts pv vns g s u' v' hsrc h)

theorem driftFold_keeps_ref (atts : List String) (pv : String)
    (vns : List NodeId) (y : String) (hy : y ∉ atts)
    (ps : List MemoryAgent.Participant) : ∀ g : Graph,
    g.hasNode (NodeId.version pv) = true →
    g.hasNode (NodeId.stakeholder y) = true →
    g.edgeType? (NodeId.version pv) (NodeId.stakeholder y) =
      some "referenced_by" →
    (ps.foldl (ProjectEndpoints.driftResetStakeholder atts pv vns) g).edgeType?
      (NodeId.version pv) (NodeId.stakeholder y) = some "referenced_by" := by
  induction ps with
  | nil => intro g _ _ h; exact h
  | cons s rest ih =>
      intro g hv hsy h
      rw [List.foldl_cons]
      refine ih _ (driftReset_hasNode atts pv vns g s _ hv)
        (driftReset_hasNode atts pv vns g s _ hsy) ?_
      by_cases hid : y = s.stakeholder_id
      · subst hid
        exact driftReset_sets_ref atts pv vns g s (fun hc => hy hc) hv hsy
      · rw [driftReset_other atts pv vns g s pv y hid]
        exact h

theorem driftFold_sets_ref (atts : List String) (pv : String)
    (vns : List NodeId) (ps : List MemoryAgent.Participant) :
    ∀ g : Graph, ∀ s ∈ ps, s.stakeholder_id ∉ atts →
    g.hasNode (NodeId.version pv) = true →
    g.hasNode (NodeId.stakeholder s.stakeholder_id) = true →
    (ps.foldl (ProjectEndpoints.driftResetStakeholder atts pv vns) g).edgeType?
      (NodeId.version pv) (NodeId.stakeholder s.stakeholder_id) =
      some "referenced_by" := by
  induction ps with
  | nil => intro g s hs; cases hs
  | cons s0 rest ih =>
      intro g s hs hna hv hsy
      rw [List.foldl_cons]
      rcases List.mem_cons.mp hs with rfl | hs2
      · refine driftFold_keeps_ref atts pv vns s.stakeholder_id hna rest _
          (driftReset_hasNode atts pv vns g s _ hv)
          (driftReset_hasNode atts pv vns g s _ hsy) ?_
        exact driftReset_sets_ref atts pv vns g s hna hv hsy
      · exact ih _ s hs2 hna (driftReset_hasNode atts pv vns g s0 _ hv)
          (driftReset_hasNode atts pv vns g s0 _ hsy)

theorem driftFold_attendee_frame (atts : List String) (pv : String)
    (vns : List NodeId) (y : String) (hy : y ∈ atts)
    (ps : List MemoryAgent.Participant) : ∀ g : Graph, ∀ x : String,
    (ps.foldl (ProjectEndpoints.driftResetStakeholder atts pv vns) g).edgeType?
      (NodeId.version x) (NodeId.stakeholder y) =
    g.edgeType? (NodeId.version x) (NodeId.stakeholder y) := by
  induction ps with
  | nil => intro g x; rfl
  | cons s rest ih =>
      intro g x
      rw [List.foldl_cons, ih]
      by_cases ha : s.stakeholder_id ∈ atts
      · rw [driftReset_attendee atts pv vns g s ha]
      · exact driftReset_other atts pv vns g s x y
          (fun hc => ha (hc ▸ hy))

theorem mark_drift_single (g : Graph) (ps : List MemoryAgent.Participant)
    (atts : List String) (d pv : String) (hne : pv ≠ "") :
    ProjectEndpoints.mark_attendance_drift g ps atts [(d, some pv)] =
      ps.foldl (ProjectEndpoints.driftResetStakeholder atts pv
        (ProjectEndpoints.driftResetVersionNodes g d)) g := by
  simp only [ProjectEndpoints.mark_attendance_drift, List.foldl]
  rw [if_neg hne]

/-! Effects of `_record_attendee_acknowledgement`. -/

theorem ackFold_hasNode (vid : String) (n : NodeId)
    (parts : List MemoryAgent.Participant) : ∀ g : Graph,
    g.hasNode n = true →
    (parts.foldl (fun g p =>
      match DecisionGraph.record_reference g vid p.stakeholder_id with
      | .ok g' => g'
      | .error _ => g) g).hasNode n = true := by
  induction parts with
  | nil => intro g h; exact h
  | cons p rest ih =>
      intro g h
      rw [List.foldl_cons]
      refine ih _ ?_
      rcases hrec : DecisionGraph.record_reference g vid p.stakeholder_id
          with e | g2
      · exact h
      · rw [record_ref_ok_shape _ vid p.stakeholder_id g2 hrec]
        exact hasNode_addEdgeRaw_of _ _ _ _ n h

theorem ackFold_keeps_rb (vid y : String)
    (parts : List MemoryAgent.Participant) : ∀ g : Graph,
    g.edgeType? (NodeId.version vid) (NodeId.stakeholder y) =
      some "referenced_by" →
    (parts.foldl (fun g p =>
      match DecisionGraph.record_reference g vid p.stakeholder_id with
      | .ok g' => g'
      | .error _ => g) g).edgeType? (NodeId.version vid)
      (NodeId.stakeholder y) = some "referenced_by" := by
  induction parts with
  | nil => intro g h; exact h
  | cons p rest ih =>
      intro g h
      rw [List.foldl_cons]
      refine ih _ ?_
      rcases hrec : DecisionGraph.record_reference g vid p.stakeholder_id
          with e | g2
      · exact h
      · rw [record_ref_ok_shape _ vid p.stakeholder_id g2 hrec]
        by_cases hid : y = p.stakeholder_id
        · subst hid
          exact edgeType?_addEdge_self_any _ _ _ _
        · rw [edgeType?_addEdge_ne_any _ _ _ _ _ "referenced_by"
            (fun hc => hid (by injection hc.2))]
          exact h

theorem ackFold_sets_rb (vid : String)
    (parts : List MemoryAgent.Participant) : ∀ g : Graph,
    ∀ p ∈ parts, g.hasNode (NodeId.version vid) = true →
    (∀ q ∈ parts, g.hasNode (NodeId.stakeholder q.stakeholder_id) = true) →
    (parts.foldl (fun g p =>
      match DecisionGraph.record_reference g vid p.stakeholder_id with
      | .ok g' => g'
      | .error _ => g) g).edgeType? (NodeId.version vid)
      (NodeId.stakeholder p.stakeholder_id) = some "referenced_by" := by
  induction parts with
  | nil => intro g p hp; cases hp
  | cons q0 rest ih =>
      intro g p hp hv hall
      rw [List.foldl_cons]
      have hstep : ∀ n, g.hasNode n = true →
          (match DecisionGraph.record_reference g vid q0.stakeholder_id with
            | .ok g' => g'
            | .error _ => g).hasNode n = true := by
        intro n h
        rcases hrec : DecisionGraph.record_reference g vid q0.stakeholder_id
            with e | g2
        · exact h
        · rw [record_ref_ok_shape _ vid q0.stakeholder_id g2 hrec]
          exact hasNode_addEdgeRaw_of _ _ _ _ n h
      rcases List.mem_cons.mp hp with rfl | hp2
      · refine ackFold_keeps_rb vid p.stakeholder_id rest _ ?_
        rw [record_ref_apply g vid p.stakeholder_id hv
          (hall p (List.mem_cons_self p rest))]
        exact edgeType?_addEdge_self_any _ _ _ _
      · exact ih _ p hp2 (hstep _ hv)
          (fun q hq => hstep _ (hall q (List.mem_cons_of_mem q0 hq)))

theorem ackFold_frame_src_ne (vid : String) (u' : NodeId)
    (hsrc : u' ≠ NodeId.version vid)
    (parts : List MemoryAgent.Participant) : ∀ (g : Graph) (v' : NodeId),
    (parts.foldl (fun g p =>
      match DecisionGraph.record_reference g vid p.stakeholder_id with
      | .ok g' => g'
      | .error _ => g) g).edgeType? u' v' = g.edgeType? u' v' := by
  induction parts with
  | nil => intro g v'; rfl
  | cons p rest ih =>
      intro g v'
      rw [List.foldl_cons, ih]
      rcases hrec : DecisionGraph.record_reference g vid p.stakeholder_id
          with e | g2
      · rfl
      · rw [record_ref_ok_shape _ vid p.stakeholder_id g2 hrec]
        exact edgeType?_addEdge_ne_any _ _ _ _ _ "referenced_by"
          (fun hc => hsrc hc.1)

theorem ackFold_none_nonmember (vid y : String)
    (parts : List MemoryAgent.Participant)
    (hy : y ∉ parts.map (fun p => p.stakeholder_id)) : ∀ g : Graph,
    g.edgeType? (NodeId.version vid) (NodeId.stakeholder y) = none →
    (parts.foldl (fun g p =>
      match DecisionGraph.record_reference g vid p.stakeholder_id with
      | .ok g' => g'
      | .error _ => g) g).edgeType? (NodeId.version vid)
      (NodeId.stakeholder y) = none := by
  induction parts with
  | nil => intro g h; exact h
  | cons p rest ih =>
      intro g h
      rw [List.foldl_cons]
      have hyrest : y ∉ rest.map (fun p => p.stakeholder_id) := by
        intro hc
        refine hy ?_
        simp only [List.map_cons, List.mem_cons]
        exact Or.inr hc
      have hyp : y ≠ p.stakeholder_id := by
        intro hc
        refine hy ?_
        simp only [List.map_cons, List.mem_cons]
        exact Or.inl hc
      refine ih hyrest _ ?_
      rcases hrec : DecisionGraph.record_reference g vid p.stakeholder_id
          with e | g2
      · exact h
      · rw [record_ref_ok_shape _ vid p.stakeholder_id g2 hrec]
        rw [edgeType?_addEdge_ne_any _ _ _ _ _ "referenced_by"
          (fun hc => hyp (by injection hc.2))]
        exact h

/-- C3 amended: after approving a single-decision meeting that commits a
fresh version `v2` to a decision whose previous latest was `v1`, every
project stakeholder outside the attendee set ends with a `referenced_by`
edge from `v1` and none from `v2`, exactly as claimed; every attendee ends
with a `referenced_by` edge from `v2`, but the attendee's `v1` reference
edge is left exactly as it was before the meeting - `_mark_attendance_drift`
skips attendees, and no other step removes a version-to-stakeholder edge -
so an attendee who referenced `v1` before keeps that edge, contrary to the
claim's "no referenced_by edge to v1" for attendees. -/
theorem approve_meeting_attendance_reconciliation (g : Graph)
    (pid ts : String) (ps parts : List MemoryAgent.Participant)
    (md : MemoryAgent.MeetingDecision) (v1 : String)
    (hres : VersionResolution.get_latest_decision_version g md.decision_id =
      .ok (NodeId.version v1))
    (hvid : versionIdOf g (NodeId.version v1) = some v1)
    (hv1ne : v1 ≠ "")
    (hfresh : g.hasNode (NodeId.version md.version_id) = false)
    (hC : EdgeClosed g)
    (hroles : ∀ p ∈ parts, Stakeholders.validRole (some p.role) = true)
    (hsn : ∀ s ∈ ps, g.hasNode (NodeId.stakeholder s.stakeholder_id) = true) :
    ∃ gF, ProjectEndpoints.approve_meeting g pid ts ps [md] parts = .ok gF ∧
      (∀ s ∈ ps, s.stakeholder_id ∉ parts.map (fun p => p.stakeholder_id) →
        gF.edgeType? (NodeId.version v1)
          (NodeId.stakeholder s.stakeholder_id) = some "referenced_by" ∧
        gF.edgeType? (NodeId.version md.version_id)
          (NodeId.stakeholder s.stakeholder_id) = none) ∧
      (∀ p ∈ parts,
        gF.edgeType? (NodeId.version md.version_id)
          (NodeId.stakeholder p.stakeholder_id) = some "referenced_by" ∧
        gF.edgeType? (NodeId.version v1)
          (NodeId.stakeholder p.stakeholder_id) =
          g.edgeType? (NodeId.version v1)
            (NodeId.stakeholder p.stakeholder_id)) := by
  have hsafe : ProjectEndpoints.safe_latest_version g md.decision_id =
      some v1 := by
    unfold ProjectEndpoints.safe_latest_version
    rw [hres]
    dsimp only
    rw [hvid]
    rfl
  have hv1mem : NodeId.version v1 ∈
      VersionResolution.latestCandidates g md.decision_id := by
    rw [(resolver_ok_inversion g _ _ hres).2]
    exact List.mem_singleton.mpr rfl
  have hv1node : g.hasNode (NodeId.version v1) = true :=
    hasNode_of_typeOf g _ _ (typed_of_mem_rvn g md.decision_id _
      ((mem_latestCandidates g md.decision_id _).mp hv1mem).1)
  have hv12 : v1 ≠ md.version_id := by
    intro hc
    rw [hc, hfresh] at hv1node
    cases hv1node
  have hv12n : NodeId.version md.version_id ≠ NodeId.version v1 := by
    intro hc
    injection hc with hc
    exact hv12 hc.symm
  have hv21n : NodeId.version v1 ≠ NodeId.version md.version_id := by
    intro hc
    injection hc with hc
    exact hv12 hc
  obtain ⟨g3, hproc, hE3, hM3, hV3, hP3⟩ :=
    processDecision_effects g pid ts parts md v1 hroles hres hfresh
  have hdrift := mark_drift_single g3 ps
    (parts.map (fun p => p.stakeholder_id)) md.decision_id v1 hv1ne
  refine ⟨(parts.foldl (fun g p =>
      match DecisionGraph.record_reference g md.version_id
          p.stakeholder_id with
      | .ok g' => g'
      | .error _ => g)
    (ps.foldl (ProjectEndpoints.driftResetStakeholder
      (parts.map (fun p => p.stakeholder_id)) v1
      (ProjectEndpoints.driftResetVersionNodes g3 md.decision_id)) g3)),
    ?_, ?_, ?_⟩
  · simp only [ProjectEndpoints.approve_meeting,
      MemoryAgent.process_meeting_graph, List.foldlM, List.map, List.foldl,
      hsafe, hproc, except_bind_ok, except_pure_bind]
    rw [hdrift]
    rfl
  · intro s hs hna
    constructor
    · rw [ackFold_frame_src_ne md.version_id (NodeId.version v1) hv21n
        parts _ (NodeId.stakeholder s.stakeholder_id)]
      exact driftFold_sets_ref _ v1 _ ps g3 s hs hna
        (hM3 _ hv1node) (hM3 _ (hsn s hs))
    · refine ackFold_none_nonmember md.version_id s.stakeholder_id parts
        hna _ ?_
      refine driftFold_none _ v1 _ (NodeId.version md.version_id)
        (NodeId.stakeholder s.stakeholder_id) hv12n ps g3 ?_
      rw [hE3 md.version_id s.stakeholder_id]
      exact edgeType?_none_of_absent g hC _ hfresh _
  · intro p hp
    constructor
    · refine ackFold_sets_rb md.version_id parts _ p hp ?_ ?_
      · exact driftFold_hasNode _ v1 _ _ ps g3 hV3
      · intro q hq
        exact driftFold_hasNode _ v1 _ _ ps g3 (hP3 q hq)
    · rw [ackFold_frame_src_ne md.version_id (NodeId.version v1) hv21n
        parts _ (NodeId.stakeholder p.stakeholder_id)]
      rw [driftFold_attendee_frame (parts.map (fun p => p.stakeholder_id))
        v1 _ p.stakeholder_id (List.mem_map_of_mem _ hp) ps g3 v1]
      exact hE3 v1 p.stakeholder_id

/-- One decision `d1` with a single latest version `v1`, referenced by both
stakeholders `s1` (a future meeting attendee) and `s2` (a non-attendee). -/
def gMeet : Graph :=
  { nodes := [
      (NodeId.decision "d1",
        { type := some "decision", decision_id := some "d1",
          title := some "T1", created_at := some "t0" }),
      (NodeId.version "v1",
        { type := some "decision_version", version_id := some "v1",
          decision_id := some "d1", content := some "c1",
          created_at := some "t1", confidence := some 1,
          reasoning := some "r1" }),
      (NodeId.stakeholder "s1",
        { type := some "stakeholder", stakeholder_id := some "s1",
          name := some "Sam", role := some "Contributor" }),
      (NodeId.stakeholder "s2",
        { type := some "stakeholder", stakeholder_id := some "s2",
          name := some "Noa", role := some "Informed" })],
    edges := [
      ⟨NodeId.decision "d1", NodeId.version "v1", "has_version"⟩,
      ⟨NodeId.version "v1", NodeId.stakeholder "s1", "referenced_by"⟩,
      ⟨NodeId.version "v1", NodeId.stakeholder "s2", "referenced_by"⟩] }

/-- The attendee participant record for `s1`. -/
def pS1 : MemoryAgent.Participant :=
  { stakeholder_id := "s1", name := "Sam", department := "Eng",
    role := "Contributor" }

/-- The non-attendee project stakeholder record for `s2`. -/
def pS2 : MemoryAgent.Participant :=
  { stakeholder_id := "s2", name := "Noa", department := "Eng",
    role := "Informed" }

/-- The structured meeting decision committing fresh version `v2` to `d1`. -/
def mdMeet : MemoryAgent.MeetingDecision :=
  { decision_id := "d1", title := "T1", version_id := "v2", content := "c2",
    confidence := 1, reasoning := "r2" }

/-- C3 counterexample: stakeholder `s1` references `v1`, attends the meeting
that commits `v2` to `d1`, and after `_approve_meeting` holds `referenced_by`
edges from BOTH `v1` and `v2` - the claimed "no referenced_by edge to v1"
for attendees is false, because `_mark_attendance_drift` skips attendees and
nothing else removes their old reference edges. -/
theorem approve_meeting_attendee_keeps_old_reference :
    (ProjectEndpoints.approve_meeting gMeet "p1" "t9" [pS1, pS2] [mdMeet]
        [pS1]).map (fun gF =>
      (gF.edgeType? (NodeId.version "v1") (NodeId.stakeholder "s1"),
       gF.edgeType? (NodeId.version "v2") (NodeId.stakeholder "s1"))) =
      .ok (some "referenced_by", some "referenced_by") := by
  decide

theorem approve_meeting_attendance_reconciliation_witness :
    EdgeClosed gMeet ∧
    VersionResolution.get_latest_decision_version gMeet "d1" =
      .ok (NodeId.version "v1") ∧
    gMeet.hasNode (NodeId.version "v2") = false ∧
    (∃ gF, ProjectEndpoints.approve_meeting gMeet "p1" "t9" [pS1, pS2]
        [mdMeet] [pS1] = .ok gF ∧
      (∀ s ∈ [pS1, pS2],
        s.stakeholder_id ∉ [pS1].map (fun p => p.stakeholder_id) →
        gF.edgeType? (NodeId.version "v1")
          (NodeId.stakeholder s.stakeholder_id) = some "referenced_by" ∧
        gF.edgeType? (NodeId.version mdMeet.version_id)
          (NodeId.stakeholder s.stakeholder_id) = none) ∧
      (∀ p ∈ [pS1],
        gF.edgeType? (NodeId.version mdMeet.version_id)
          (NodeId.stakeholder p.stakeholder_id) = some "referenced_by" ∧
        gF.edgeType? (NodeId.version "v1")
          (NodeId.stakeholder p.stakeholder_id) =
          gMeet.edgeType? (NodeId.version "v1")
            (NodeId.stakeholder p.stakeholder_id))) :=
  ⟨by unfold EdgeClosed; decide, by decide, by decide,
    approve_meeting_attendance_reconciliation gMeet "p1" "t9" [pS1, pS2]
      [pS1] mdMeet "v1" (by decide) (by decide) (by decide) (by decide)
      (by unfold EdgeClosed; decide) (by decide) (by decide)⟩

/-- C10: `MemoryAgent._upsert_decision_version` is structure-preserving.
When the version node already exists, the call returns the graph unchanged
except for the `project_id` stamp on that node (same edges, all other nodes
untouched).  When the version is new and the decision has a uniquely
resolvable latest version `L`, the call succeeds, adds a supersedes edge
from the new version node to `L`, and the decision resolves to the new
version as its unique latest candidate afterwards.  The `EdgeClosed`
hypothesis states that every edge connects present nodes, which every
`networkx.DiGraph` satisfies by construction. -/
theorem memory_upsert_decision_version_structure (g : Graph)
    (pid d vid content : String) (conf : Rat) (reasoning ts : String) :
    (g.hasNode (NodeId.version vid) = true →
      MemoryAgent.upsert_decision_version g pid d vid content conf reasoning ts =
        .ok (MemoryAgent.stampProject g (NodeId.version vid) pid) ∧
      (MemoryAgent.stampProject g (NodeId.version vid) pid).edges = g.edges ∧
      (∀ n, n ≠ NodeId.version vid →
        (MemoryAgent.stampProject g (NodeId.version vid) pid).getNode? n =
          g.getNode? n) ∧
      (MemoryAgent.stampProject g (NodeId.version vid) pid).getNode?
          (NodeId.version vid) =
        (g.getNode? (NodeId.version vid)).map
          (fun a => { a with project_id := some pid })) ∧
    (∀ L, g.hasNode (NodeId.version vid) = false → EdgeClosed g →
      VersionResolution.get_latest_decision_version g d = .ok L →
      ∃ g', MemoryAgent.upsert_decision_version g pid d vid content conf
          reasoning ts = .ok g' ∧
        g'.edgeType? (NodeId.version vid) L = some "supersedes" ∧
        VersionResolution.latestCandidates g' d = [NodeId.version vid]) := by
  constructor
  · intro hvex
    refine ⟨?_, rfl, ?_, ?_⟩
    · unfold MemoryAgent.upsert_decision_version
      simp [hvex]
    · intro n hn
      exact getNode?_updateNode_ne g (NodeId.version vid) n _ hn
    · rcases ha : g.getNode? (NodeId.version vid) with _ | a
      · unfold Graph.hasNode at hvex
        rw [ha] at hvex
        cases hvex
      · rw [MemoryAgent.stampProject, getNode?_updateNode_self, ha]
        rfl
  · intro L hvnew hC hr
    obtain ⟨hdT, hlc⟩ := resolver_ok_inversion g d L hr
    have hdn_has : g.hasNode (NodeId.decision d) = true :=
      hasNode_of_typeOf g _ _ hdT
    have hdn_ne : NodeId.decision d ≠ NodeId.version vid := fun h => by cases h
    have hLlc : L ∈ VersionResolution.latestCandidates g d := by
      rw [hlc]
      exact List.mem_singleton_self L
    obtain ⟨hLvs, hLnsup⟩ := (mem_latestCandidates g d L).mp hLlc
    have hLhas : g.hasNode L = true := by
      rcases (mem_resolverVersionNodes g d L).mp hLvs with ⟨e, he, h1, h2, h3, h4⟩
      have h5 := (hC e he).2
      rwa [h4] at h5
    have hLne : L ≠ NodeId.version vid := by
      intro h
      rw [h] at hLhas
      rw [hLhas] at hvnew
      cases hvnew
    have hne_g : ∀ e ∈ g.edges,
        e.src ≠ NodeId.version vid ∧ e.dst ≠ NodeId.version vid := by
      intro e he
      constructor
      · intro h
        have h5 := (hC e he).1
        rw [h] at h5
        rw [h5] at hvnew
        cases hvnew
      · intro h
        have h5 := (hC e he).2
        rw [h] at h5
        rw [h5] at hvnew
        cases hvnew
    have hgnone : g.getNode? (NodeId.version vid) = none := by
      rcases hx : g.getNode? (NodeId.version vid) with _ | a
      · rfl
      · unfold Graph.hasNode at hvnew
        rw [hx] at hvnew
        cases hvnew
    rw [upsert_decision_version_fresh_eq g pid d vid content conf reasoning ts L
      hvnew hdn_has hr hLne]
    set g1 := g.updateNode (NodeId.version vid) (fun a =>
      { a with type := some "decision_version", version_id := some vid,
               decision_id := some d, content := some content,
               created_at := some ts, confidence := some conf,
               reasoning := some reasoning }) with hg1
    set gA := g1.addEdgeRaw (NodeId.decision d) (NodeId.version vid)
      "has_version" with hgA
    set gB := gA.addEdgeRaw (NodeId.version vid) L "supersedes" with hgB
    set gFin := MemoryAgent.stampProject gB (NodeId.version vid) pid with hgFin
    have hg1_edges : g1.edges = g.edges := rfl
    have hg1dn : g1.hasNode (NodeId.decision d) = true := by
      rw [hg1, hasNode_updateNode, if_neg hdn_ne]
      exact hdn_has
    have hg1vn : g1.hasNode (NodeId.version vid) = true := by
      rw [hg1, hasNode_updateNode, if_pos rfl]
    have hg1L : g1.hasNode L = true := by
      rw [hg1, hasNode_updateNode, if_neg hLne]
      exact hLhas
    have hnoneA : lookupEdge g1.edges (NodeId.decision d)
        (NodeId.version vid) = none := by
      rw [hg1_edges]
      exact lookupEdge_eq_none _ _ _ (fun e he hc => (hne_g e he).2 hc.2)
    have hAnodes : gA.nodes = g1.nodes := by
      rw [hgA]
      exact addEdgeRaw_nodes g1 _ _ _ hg1dn hg1vn
    have hAedges : gA.edges = g.edges ++
        [⟨NodeId.decision d, NodeId.version vid, "has_version"⟩] := by
      rw [hgA, addEdgeRaw_append g1 _ _ _ hg1dn hg1vn hnoneA, hg1_edges]
    have hAvn : gA.hasNode (NodeId.version vid) = true := by
      rw [hasNode_of_nodes_eq hAnodes]
      exact hg1vn
    have hAL : gA.hasNode L = true := by
      rw [hasNode_of_nodes_eq hAnodes]
      exact hg1L
    have hnoneB : lookupEdge gA.edges (NodeId.version vid) L = none := by
      rw [hAedges]
      apply lookupEdge_eq_none
      intro e he hc
      rcases List.mem_append.mp he with he | he
      · exact (hne_g e he).1 hc.1
      · rw [List.mem_singleton] at he
        rw [he] at hc
        exact hdn_ne hc.1
    have hBedges : gB.edges = g.edges ++
        [⟨NodeId.decision d, NodeId.version vid, "has_version"⟩,
         ⟨NodeId.version vid, L, "supersedes"⟩] := by
      rw [hgB, addEdgeRaw_append gA _ _ _ hAvn hAL hnoneB, hAedges,
        List.append_assoc]
      rfl
    have hBnodes : gB.nodes = g1.nodes := by
      rw [hgB, addEdgeRaw_nodes gA _ _ _ hAvn hAL]
      exact hAnodes
    have hFinEdges : gFin.edges = gB.edges := by
      rw [hgFin]
      rfl
    have hg1_get_vn : g1.getNode? (NodeId.version vid) =
        some { type := some "decision_version", version_id := some vid,
               decision_id := some d, content := some content,
               created_at := some ts, confidence := some conf,
               reasoning := some reasoning } := by
      rw [hg1, getNode?_updateNode_self, hgnone]
      rfl
    have hFinGet_ne : ∀ x, x ≠ NodeId.version vid →
        gFin.getNode? x = g.getNode? x := by
      intro x hx
      rw [hgFin, MemoryAgent.stampProject,
        getNode?_updateNode_ne _ _ _ _ hx, getNode?_of_nodes_eq hBnodes,
        hg1, getNode?_updateNode_ne _ _ _ _ hx]
    have hFinType_ne : ∀ x, x ≠ NodeId.version vid →
        typeOf gFin x = typeOf g x := by
      intro x hx
      unfold typeOf
      rw [hFinGet_ne x hx]
    have hFinVnType : typeOf gFin (NodeId.version vid) =
        some "decision_version" := by
      rw [hgFin, MemoryAgent.stampProject]
      unfold typeOf
      rw [getNode?_updateNode_self, getNode?_of_nodes_eq hBnodes, hg1_get_vn]
      rfl
    refine ⟨gFin, rfl, ?_, ?_⟩
    · rw [Graph.edgeType?, hFinEdges, hBedges,
        lookupEdge_append_none _ _ _ _
          (lookupEdge_eq_none _ _ _ (fun e he hc => (hne_g e he).1 hc.1)),
        lookupEdge, if_neg (fun hc => hdn_ne hc.1), lookupEdge,
        if_pos ⟨rfl, rfl⟩]
      rfl
    · have h1 : VersionResolution.resolverVersionNodes gFin d =
            VersionResolution.resolverVersionNodes g d ++
              [NodeId.version vid] := by
          unfold VersionResolution.resolverVersionNodes
          rw [hFinEdges, hBedges, List.filter_append, List.map_append]
          congr 1
          · congr 1
            apply List.filter_congr
            intro e he
            rw [decide_eq_decide]
            constructor
            · rintro ⟨ha, hb, hc2⟩
              exact ⟨ha, hb, by rwa [hFinType_ne e.dst (hne_g e he).2] at hc2⟩
            · rintro ⟨ha, hb, hc2⟩
              exact ⟨ha, hb, by rwa [hFinType_ne e.dst (hne_g e he).2]⟩
          · simp [hFinVnType]
      have hsup2 : ∀ x, x ∈ VersionResolution.supersededOf gFin
          (VersionResolution.resolverVersionNodes g d ++
            [NodeId.version vid]) ↔
          x ∈ VersionResolution.supersededOf g
            (VersionResolution.resolverVersionNodes g d) ∨ x = L := by
        intro x
        rw [mem_supersededOf, mem_supersededOf]
        constructor
        · rintro ⟨e, he, hsrc, htype, hdst, rfl⟩
          rw [hFinEdges, hBedges] at he
          rcases List.mem_append.mp he with he | he
          · left
            rcases List.mem_append.mp hsrc with hsrc | hsrc
            · rcases List.mem_append.mp hdst with hdst | hdst
              · exact ⟨e, he, hsrc, htype, hdst, rfl⟩
              · rw [List.mem_singleton] at hdst
                exact absurd hdst (hne_g e he).2
            · rw [List.mem_singleton] at hsrc
              exact absurd hsrc (hne_g e he).1
          · rcases List.mem_cons.mp he with rfl | he
            · simp at htype
            · rw [List.mem_singleton] at he
              subst he
              right
              rfl
        · rintro (⟨e, he, hsrc, htype, hdst, rfl⟩ | hxL)
          · refine ⟨e, ?_, List.mem_append_left _ hsrc, htype,
              List.mem_append_left _ hdst, rfl⟩
            rw [hFinEdges, hBedges]
            exact List.mem_append_left _ he
          · refine ⟨⟨NodeId.version vid, L, "supersedes"⟩, ?_, ?_, rfl,
              List.mem_append_left _ hLvs, hxL.symm⟩
            · rw [hFinEdges, hBedges]
              simp
            · simp
      unfold VersionResolution.latestCandidates
      rw [h1, List.filter_append]
      have hA' : (VersionResolution.resolverVersionNodes g d).filter
          (fun v => decide (v ∉ VersionResolution.supersededOf gFin
            (VersionResolution.resolverVersionNodes g d ++
              [NodeId.version vid]))) = [] := by
        have hstep : (VersionResolution.resolverVersionNodes g d).filter
            (fun v => decide (v ∉ VersionResolution.supersededOf gFin
              (VersionResolution.resolverVersionNodes g d ++
                [NodeId.version vid]))) =
            (VersionResolution.latestCandidates g d).filter
              (fun v => decide (¬ v = L)) := by
          unfold VersionResolution.latestCandidates
          rw [List.filter_filter]
          apply List.filter_congr
          intro v hv
          by_cases h2 : v = L
          · simp [hsup2, h2]
          · by_cases h3 : v ∈ VersionResolution.supersededOf g
                (VersionResolution.resolverVersionNodes g d)
            · simp [hsup2, h2, h3]
            · simp [hsup2, h2, h3]
        rw [hstep, hlc]
        simp
      have hB' : [NodeId.version vid].filter
          (fun v => decide (v ∉ VersionResolution.supersededOf gFin
            (VersionResolution.resolverVersionNodes g d ++
              [NodeId.version vid]))) = [NodeId.version vid] := by
        have hnot : NodeId.version vid ∉ VersionResolution.supersededOf gFin
            (VersionResolution.resolverVersionNodes g d ++
              [NodeId.version vid]) := by
          rw [hsup2]
          rintro (hmem | heq)
          · rcases (mem_supersededOf g _ _).mp hmem with
              ⟨e, he, h1', h2', h3', h4'⟩
            exact (hne_g e he).2 h4'
          · exact hLne heq.symm
        simp [hnot]
      rw [hA', hB']
      rfl

theorem memory_upsert_decision_version_structure_witness :
    gChain.hasNode (NodeId.version "v1") = true ∧
    MemoryAgent.upsert_decision_version gChain "p1" "d1" "v1" "c" 1 "r" "t9" =
      .ok (MemoryAgent.stampProject gChain (NodeId.version "v1") "p1") ∧
    gChain.hasNode (NodeId.version "v3") = false ∧
    EdgeClosed gChain ∧
    VersionResolution.get_latest_decision_version gChain "d1" =
      .ok (NodeId.version "v2") ∧
    (∃ g', MemoryAgent.upsert_decision_version gChain "p1" "d1" "v3" "c3" 1
        "r3" "t9" = .ok g' ∧
      g'.edgeType? (NodeId.version "v3") (NodeId.version "v2") =
        some "supersedes" ∧
      VersionResolution.latestCandidates g' "d1" = [NodeId.version "v3"]) :=
  ⟨by decide,
    ((memory_upsert_decision_version_structure gChain "p1" "d1" "v1" "c" 1 "r"
      "t9").1 (by decide)).1,
    by decide, by unfold EdgeClosed; decide, by decide,
    (memory_upsert_decision_version_structure gChain "p1" "d1" "v3" "c3" 1
      "r3" "t9").2 (NodeId.version "v2") (by decide)
      (by unfold EdgeClosed; decide) (by decide)⟩

theorem record_reference_idempotent_witness :
    DecisionGraph.record_reference gRefExample "v1" "s1" =
      .ok (gRefExample.addEdgeRaw (NodeId.version "v1")
        (NodeId.stakeholder "s1") "referenced_by") ∧
    DecisionGraph.record_reference
      (gRefExample.addEdgeRaw (NodeId.version "v1") (NodeId.stakeholder "s1")
        "referenced_by") "v1" "s1" =
      .ok (gRefExample.addEdgeRaw (NodeId.version "v1")
        (NodeId.stakeholder "s1") "referenced_by") :=
  ⟨by decide, record_reference_idempotent gRefExample _ "v1" "s1" (by decide)⟩

end CosAi
